import Mathlib

/-!
# A shallow embedding of the A* search in `WardCS330Program3.py`

The program loads a directed, weighted graph and runs A* with a
"reopen a closed node on improvement" policy.  This file embeds the
search procedure `astar(nodes, edges, start, goal)` (source lines
77-123) and the heuristic `h(nodes, a, b)` (lines 68-71) and proves
properties of them.

Modelling choices, all mirroring the source:

* Node identifiers are Python ints, modelled as `Int`.
* Edge costs are Python floats holding parsed decimal literals; they are
  modelled exactly as rationals `ℚ`.  `math.inf` (the `defaultdict`
  default for `g_cost`/`f_cost`, and the "no path" cost) is modelled by
  `⊤` in `WithTop ℚ`.
* The heuristic value `h(nodes, a, b) = math.hypot(dx, dz)` is a real
  number; the embedding abstracts the numeric computation as a parameter
  `hf : Int → Int → ℚ` while modelling the two dictionary lookups
  `nodes[b]`, `nodes[a]` (which raise `KeyError` for an unknown id)
  faithfully, in the evaluation order of source line 69.
* Python exceptions are modelled by `Except PyErr`; an uncaught
  `KeyError k` surfaces as `Except.error (PyErr.keyError k)`.
* The unbounded `while open_set:` loop (line 88) and the path
  reconstruction loop (lines 95-96) are modelled with an explicit fuel
  parameter; `none` means the computation did not finish within the
  given fuel, and a diverging run yields `none` for every fuel.
-/

namespace WardAStar

set_option allowUnsafeReducibility true
attribute [local semireducible] Rat.add Rat.sub Rat.neg Rat.mul Rat.div Rat.inv

/-- One `(from_id, to_id, cost)` record as produced by `load_connections`. -/
structure Edge where
  src : Int
  dst : Int
  cost : ℚ
deriving DecidableEq, Repr

/-- A Python exception escaping `astar`.  The only exception the search
can raise is the `KeyError` from the `nodes[...]` lookups in `h`. -/
inductive PyErr where
  | keyError (k : Int)
deriving DecidableEq, Repr

/-- The outgoing-edge list `edges.get(current, [])`: the `defaultdict`
built by `load_connections` keeps, for each `from_id`, the `(to_id,
cost)` pairs in file order, which is the sublist of the full record list
with that `from_id`. -/
def adj (es : List Edge) (u : Int) : List (Int × ℚ) :=
  (es.filter fun e => decide (e.src = u)).map fun e => (e.dst, e.cost)

/-- The result of one `astar` call: the reconstructed path and
`g_cost[goal]` on success, or `([], math.inf)` when the open set runs
out (line 123). -/
abbrev Result := Except PyErr (List Int × WithTop ℚ)

instance {e a : Type} [DecidableEq e] [DecidableEq a] : DecidableEq (Except e a) := fun x y =>
  match x, y with
  | .error v, .error w =>
    if h : v = w then isTrue (by rw [h]) else isFalse (by intro hc; cases hc; exact h rfl)
  | .error _, .ok _ => isFalse (by intro hc; cases hc)
  | .ok _, .error _ => isFalse (by intro hc; cases hc)
  | .ok v, .ok w =>
    if h : v = w then isTrue (by rw [h]) else isFalse (by intro hc; cases hc; exact h rfl)

/-- The per-invocation search state: `open_set`, `closed_set`, the
defaultdicts `g_cost` and `f_cost` (total functions with default `⊤`),
and the predecessor dictionary `prev`. -/
@[ext] structure AState where
  openS : Finset Int
  closedS : Finset Int
  g : Int → WithTop ℚ
  f : Int → WithTop ℚ
  prev : Int → Option Int

/-- `h(nodes, a, b)` (source lines 68-71): looks up `nodes[b]` and then
`nodes[a]` (raising `KeyError` on a missing id, in that order, as in
`nodes[b]["x"] - nodes[a]["x"]`), then returns the straight-line
distance, abstracted as `hf a b`. -/
def hcall (nodes : List Int) (hf : Int → Int → ℚ) (a b : Int) : Except PyErr ℚ :=
  if b ∈ nodes then
    if a ∈ nodes then .ok (hf a b) else .error (.keyError a)
  else .error (.keyError b)

/-- `current = min(open_set, key=lambda n: (f_cost[n], n))` (line 90):
the unique element of the open set whose pair `(f n, n)` is
lexicographically least.  Python's `min` over a set with this key is
deterministic because the key is injective in `n`. -/
def select (s : Finset Int) (fc : Int → WithTop ℚ) (h : s.Nonempty) : Int :=
  (ofLex ((s.image fun v => toLex (fc v, v)).min' (h.image _))).2

/-- The common tail of the two updating branches (lines 119-121):
`prev[to] = current; g_cost[to] = tentative; f_cost[to] = tentative + h`. -/
def update (st : AState) (cur tid : Int) (tent : WithTop ℚ) (hv : ℚ) : AState :=
  { st with
    prev := fun v => if v = tid then some cur else st.prev v
    g := fun v => if v = tid then tent else st.g v
    f := fun v => if v = tid then tent + (hv : WithTop ℚ) else st.f v }

/-- Relaxation of a single outgoing edge `(to, cost)` of `cur`
(source lines 103-121), including the reopen-on-improvement branch. -/
def relaxEdge (nodes : List Int) (hf : Int → Int → ℚ) (goal cur : Int)
    (st : AState) (e : Int × ℚ) : Except PyErr AState :=
  let tent := st.g cur + (e.2 : WithTop ℚ)
  let st1 :=
    if e.1 ∈ st.closedS ∧ tent < st.g e.1 then
      { st with closedS := st.closedS.erase e.1, openS := insert e.1 st.openS }
    else st
  if e.1 ∉ st1.openS ∧ e.1 ∉ st1.closedS then
    match hcall nodes hf e.1 goal with
    | .error er => .error er
    | .ok hv => .ok (update { st1 with openS := insert e.1 st1.openS } cur e.1 tent hv)
  else if st1.g e.1 ≤ tent then .ok st1
  else
    match hcall nodes hf e.1 goal with
    | .error er => .error er
    | .ok hv => .ok (update st1 cur e.1 tent hv)

/-- The `for to_id, cost in edges.get(current, [])` loop (line 103),
aborting at the first uncaught exception. -/
def relaxList (nodes : List Int) (hf : Int → Int → ℚ) (goal cur : Int) :
    AState → List (Int × ℚ) → Except PyErr AState
  | st, [] => .ok st
  | st, e :: rest =>
    match relaxEdge nodes hf goal cur st e with
    | .error er => .error er
    | .ok st' => relaxList nodes hf goal cur st' rest

/-- The reconstruction loop `while path[0] in prev: path.appendleft(...)`
(lines 95-96), with fuel; `none` means the fuel ran out (the Python loop
would still be running). -/
def rebuildF (p : Int → Option Int) : ℕ → List Int → Option (List Int)
  | _, [] => some []
  | 0, x :: acc =>
    match p x with
    | none => some (x :: acc)
    | some _ => none
  | n + 1, x :: acc =>
    match p x with
    | none => some (x :: acc)
    | some u => rebuildF p n (u :: x :: acc)

/-- What one iteration of the `while` loop produces. -/
inductive StepOut where
  | done (r : Option Result)
  | cont (st : AState)

/-- One iteration of the `while open_set:` loop (lines 88-121): test
emptiness, select the minimum-`(f, id)` node, return on the goal test
(rebuilding the path), otherwise move it from open to closed and relax
its outgoing edges. -/
def stepF (nodes : List Int) (hf : Int → Int → ℚ) (es : List Edge) (goal : Int)
    (n : ℕ) (st : AState) : StepOut :=
  if hne : st.openS.Nonempty then
    let cur := select st.openS st.f hne
    if cur = goal then
      .done (match rebuildF st.prev n [goal] with
        | none => none
        | some p => some (.ok (p, st.g goal)))
    else
      let st1 := { st with openS := st.openS.erase cur, closedS := insert cur st.closedS }
      match relaxList nodes hf goal cur st1 (adj es cur) with
      | .error er => .done (some (.error er))
      | .ok st2 => .cont st2
  else .done (some (.ok ([], ⊤)))

/-- The fuelled `while` loop. -/
def loop (nodes : List Int) (hf : Int → Int → ℚ) (es : List Edge) (goal : Int) :
    ℕ → AState → Option Result
  | 0, _ => none
  | n + 1, st =>
    match stepF nodes hf es goal n st with
    | .done r => r
    | .cont st' => loop nodes hf es goal n st'

/-- The initialisation (lines 78-86): `open = {start}`, `closed = {}`,
`g[start] = 0`, `f[start] = h(nodes, start, goal)` — the `h` call can
raise `KeyError` before the loop is ever entered. -/
def astarInit (nodes : List Int) (hf : Int → Int → ℚ) (start goal : Int) :
    Except PyErr AState :=
  match hcall nodes hf start goal with
  | .error er => .error er
  | .ok hv =>
    .ok
      { openS := {start}
        closedS := ∅
        g := fun v => if v = start then (0 : ℚ) else ⊤
        f := fun v => if v = start then (hv : WithTop ℚ) else ⊤
        prev := fun _ => none }

/-- `astar(nodes, edges, start, goal)` (source lines 77-123), with the
heuristic numeric content `hf` and the loop fuel made explicit. -/
def astar (nodes : List Int) (hf : Int → Int → ℚ) (es : List Edge)
    (start goal : Int) (fuel : ℕ) : Option Result :=
  match astarInit nodes hf start goal with
  | .error er => some (.error er)
  | .ok st0 => loop nodes hf es goal fuel st0

/-- A directed walk through the edge list from `s` to `t`: the sequence
of edge records traversed.  The empty walk relates `s` to itself. -/
def IsWalkFrom (es : List Edge) : Int → Int → List Edge → Prop
  | s, t, [] => s = t
  | s, t, e :: rest => e ∈ es ∧ e.src = s ∧ IsWalkFrom es e.dst t rest

/-- The total cost of a walk. -/
def walkCost (w : List Edge) : ℚ := (w.map Edge.cost).sum

/-- The cheapest cost of an edge `u → v` in the edge list (`⊤` if there
is none); used to recompute a returned path's cost independently,
taking the cheapest edge when parallel edges exist. -/
def cminW (es : List Edge) (u v : Int) : WithTop ℚ :=
  ((adj es u).filter fun p => decide (p.1 = v)).foldr
    (fun p acc => min (p.2 : WithTop ℚ) acc) ⊤

/-- The independently recomputed total cost of a node path: the sum over
consecutive pairs of the cheapest connecting edge's cost. -/
def pathCostMin (es : List Edge) : List Int → WithTop ℚ
  | [] => 0
  | [_] => 0
  | a :: b :: rest => cminW es a b + pathCostMin es (b :: rest)

/-! ## Basic lemmas about selection, reconstruction and the fuelled loop -/

abbrev EdgeDict := List (Int × List (Int × ℚ))

/-- First-match association lookup. -/
def dLookup : EdgeDict → Int → Option (List (Int × ℚ))
  | [], _ => none
  | (k', l) :: rest, k => if k' = k then some l else dLookup rest k

/-- `edges.get(k, [])`: read-only lookup with default. -/
def dGet (d : EdgeDict) (k : Int) : List (Int × ℚ) :=
  (dLookup d k).getD []

/-- `edges[k]` on a `defaultdict(list)`: returns the entry, inserting
`(k, [])` first when the key is missing.  The search never calls this;
it is defined to state what the code avoids. -/
def dGetItem (d : EdgeDict) (k : Int) : List (Int × ℚ) × EdgeDict :=
  match dLookup d k with
  | some l => (l, d)
  | none => ([], d ++ [(k, [])])

/-- `edges[from_id].append((to_id, cost))` (source line 61). -/
def dAppend : EdgeDict → Int → Int × ℚ → EdgeDict
  | [], k, v => [(k, [v])]
  | (k', l) :: rest, k, v =>
    if k' = k then (k', l ++ [v]) :: rest else (k', l) :: dAppend rest k v

/-- The edge store built by `load_connections` from the record list. -/
def buildDict (es : List Edge) : EdgeDict :=
  es.foldl (fun d e => dAppend d e.src (e.dst, e.cost)) []

/-- `h` with the node store threaded through: a plain-dict read returns
the store unchanged. -/
def hcallT (ns : List Int) (hf : Int → Int → ℚ) (a b : Int) :
    Except PyErr ℚ × List Int :=
  (hcall ns hf a b, ns)

/-- One loop iteration with the edge store threaded: the store is read
with `dGet` (the `.get` call of line 103), never with `dGetItem`. -/
def stepT (ns : List Int) (hf : Int → Int → ℚ) (goal : Int) (n : ℕ) (st : AState)
    (d : EdgeDict) : StepOut × EdgeDict :=
  if hne : st.openS.Nonempty then
    let cur := select st.openS st.f hne
    if cur = goal then
      (.done (match rebuildF st.prev n [goal] with
        | none => none
        | some p => some (.ok (p, st.g goal))), d)
    else
      let st1 := { st with openS := st.openS.erase cur, closedS := insert cur st.closedS }
      match relaxList ns hf goal cur st1 (dGet d cur) with
      | .error er => (.done (some (.error er)), d)
      | .ok st2 => (.cont st2, d)
  else (.done (some (.ok ([], ⊤))), d)

/-- The threaded `while` loop. -/
def loopT (ns : List Int) (hf : Int → Int → ℚ) (goal : Int) :
    ℕ → AState → EdgeDict → Option Result × EdgeDict
  | 0, _, d => (none, d)
  | n + 1, st, d =>
    match stepT ns hf goal n st d with
    | (.done r, d') => (r, d')
    | (.cont st', d') => loopT ns hf goal n st' d'

/-- `astar` with the edge store threaded through the whole call. -/
def astarT (ns : List Int) (hf : Int → Int → ℚ) (d : EdgeDict)
    (start goal : Int) (fuel : ℕ) : Option Result × EdgeDict :=
  match astarInit ns hf start goal with
  | .error er => (some (.error er), d)
  | .ok st0 => loopT ns hf goal fuel st0 d

/-- The all-zero heuristic: the code's `h` evaluated on nodes that all
share one position (`math.hypot(0, 0) = 0`). -/
def hfz : Int → Int → ℚ := fun _ _ => 0

/-- Counterexample graph for C4: a negative self-loop on the start
node; the goal `2` has no incoming edges. -/
def exC4 : List Edge := [⟨1, 1, -1⟩]

/-- The recurring loop states for the C4 counterexample: after `k ≥ 1`
full iterations the state has `open = {1}`, `closed = ∅`,
`g[1] = f[1] = -k` and `prev[1] = 1`. -/
def stC4 (k : ℕ) : AState :=
  { openS := {1}
    closedS := ∅
    g := fun v => if v = 1 then ((-(k : ℚ) : ℚ) : WithTop ℚ) else ⊤
    f := fun v => if v = 1 then ((-(k : ℚ) : ℚ) : WithTop ℚ) else ⊤
    prev := fun v => if v = 1 then some 1 else none }

/-- The state `astarInit` produces for the C4 counterexample call. -/
def stC4init : AState :=
  { openS := {1}
    closedS := ∅
    g := fun v => if v = 1 then ((0 : ℚ) : WithTop ℚ) else ⊤
    f := fun v => if v = 1 then ((hfz 1 2 : ℚ) : WithTop ℚ) else ⊤
    prev := fun _ => none }

/-- Counterexample graph for C8: a zero-cost edge into node `2`, which
carries a negative self-loop; the goal `3` is never selected. -/
def exC8 : List Edge := [⟨1, 2, 0⟩, ⟨2, 2, -1⟩]

/-- The state after `astarInit` for the C8 counterexample call. -/
def stC8init : AState :=
  { openS := {1}
    closedS := ∅
    g := fun v => if v = 1 then ((0 : ℚ) : WithTop ℚ) else ⊤
    f := fun v => if v = 1 then ((hfz 1 3 : ℚ) : WithTop ℚ) else ⊤
    prev := fun _ => none }

/-- The state after the first loop iteration (node `1` expanded). -/
def stC8A : AState :=
  { openS := {2}
    closedS := {1}
    g := fun v => if v = 2 then ((0 : ℚ) : WithTop ℚ)
      else if v = 1 then ((0 : ℚ) : WithTop ℚ) else ⊤
    f := fun v => if v = 2 then ((0 : ℚ) : WithTop ℚ)
      else if v = 1 then ((hfz 1 3 : ℚ) : WithTop ℚ) else ⊤
    prev := fun v => if v = 2 then some 1 else none }

/-- The recurring loop states: after `k ≥ 1` expansions of node `2` its
g-cost is `-k` and it has been reopened. -/
def stC8 (k : ℕ) : AState :=
  { openS := {2}
    closedS := {1}
    g := fun v => if v = 2 then ((-(k : ℚ) : ℚ) : WithTop ℚ)
      else if v = 1 then ((0 : ℚ) : WithTop ℚ) else ⊤
    f := fun v => if v = 2 then ((-(k : ℚ) : ℚ) : WithTop ℚ)
      else if v = 1 then ((hfz 1 3 : ℚ) : WithTop ℚ) else ⊤
    prev := fun v => if v = 2 then some 2 else none }

/-- Common denominator of all edge costs (used for termination: every
reachable g-cost lies on the grid `ℕ / gridDen`). -/
def gridDen (es : List Edge) : ℕ := (es.map fun e => e.cost.den).prod

/-- The finite universe of ids the search can ever place in its open
set or assign a finite g-cost: the start id and all edge targets. -/
def uni (es : List Edge) (start : Int) : Finset Int :=
  insert start (es.map Edge.dst).toFinset

/-- Facts maintained at every reachable state, including in the middle
of an expansion. -/
structure Core (hf : Int → Int → ℚ) (es : List Edge) (start goal : Int)
    (st : AState) : Prop where
  closed_finite : ∀ v ∈ st.closedS, st.g v ≠ ⊤
  finite_mem : ∀ v, st.g v ≠ ⊤ → v ∈ st.openS ∨ v ∈ st.closedS
  g_start : st.g start = 0
  goal_not_closed : goal ∉ st.closedS
  open_finite : ∀ v ∈ st.openS, st.g v ≠ ⊤
  g_nonneg : ∀ v, 0 ≤ st.g v
  f_sync : ∀ v, st.g v ≠ ⊤ → st.f v = st.g v + (hf v goal : WithTop ℚ)
  f_top : ∀ v, st.g v = ⊤ → st.f v = ⊤
  g_walk : ∀ v, st.g v ≠ ⊤ →
    ∃ w, IsWalkFrom es start v w ∧ ((walkCost w : ℚ) : WithTop ℚ) = st.g v
  prev_edge : ∀ v u, st.prev v = some u →
    (∃ e ∈ es, e.src = u ∧ e.dst = v) ∧ st.g u ≠ ⊤ ∧ st.g v ≠ ⊤ ∧
      st.g u + cminW es u v ≤ st.g v
  prev_start : st.prev start = none
  prev_none : ∀ v, st.g v ≠ ⊤ → v ≠ start → st.prev v ≠ none
  prev_acyclic : ∀ v u, st.prev v = some u →
    ¬ Relation.ReflTransGen (fun a b => st.prev a = some b) u v
  finite_uni : ∀ v, st.g v ≠ ⊤ → v ∈ uni es start
  open_uni : st.openS ⊆ uni es start
  grid : ∀ v, st.g v = ⊤ ∨
    ∃ k : ℕ, st.g v = (((k : ℚ) / (gridDen es : ℚ) : ℚ) : WithTop ℚ)

/-- The invariant between loop iterations: additionally every closed
node has all its outgoing edges relaxed. -/
structure Inv (hf : Int → Int → ℚ) (es : List Edge) (start goal : Int)
    (st : AState) extends Core hf es start goal st : Prop where
  closed_relax : ∀ u ∈ st.closedS, ∀ p ∈ adj es u,
    st.g p.1 ≤ st.g u + (p.2 : WithTop ℚ)

/-- The invariant while the edges of `cur` are being relaxed: `cur` is
already closed but its own edge list is only partially processed. -/
structure InvMid (hf : Int → Int → ℚ) (es : List Edge) (start goal : Int)
    (cur : Int) (st : AState) extends Core hf es start goal st : Prop where
  closed_other : ∀ u ∈ st.closedS, u ≠ cur → ∀ p ∈ adj es u,
    st.g p.1 ≤ st.g u + (p.2 : WithTop ℚ)
  cur_closed : cur ∈ st.closedS
  cur_finite : st.g cur ≠ ⊤

/-- Relaxation-step bookkeeping: g-costs only decrease, closed nodes
keep their values, and nodes newly in the open set had their g-cost
strictly improved. -/
structure RFacts (st st' : AState) : Prop where
  g_mono : ∀ v, st'.g v ≤ st.g v
  closed_sub : ∀ u ∈ st'.closedS, u ∈ st.closedS ∧ st'.g u = st.g u
  open_new : ∀ v ∈ st'.openS, v ∈ st.openS ∨ st'.g v < st.g v

/-- The state produced by an updating branch, with the open and closed
sets abstracted: both are described only through their membership
conditions, covering the reopen, unseen and improve branches at once. -/
def updState (st : AState) (cur tid : Int) (tent : WithTop ℚ) (hv : ℚ)
    (op cl : Finset Int) : AState :=
  { openS := op
    closedS := cl
    g := fun v => if v = tid then tent else st.g v
    f := fun v => if v = tid then tent + (hv : WithTop ℚ) else st.f v
    prev := fun v => if v = tid then some cur else st.prev v }

/-- A finite g-cost scaled to the common denominator grid (`⊤` counts
as `0`; it is handled by the separate `tcount` component). -/
def gN (L : ℕ) (x : WithTop ℚ) : ℕ := ((x.untop' 0) * L).num.toNat

/-- Number of universe nodes still at infinite g-cost. -/
def tcount (es : List Edge) (start : Int) (st : AState) : ℕ :=
  ((uni es start).filter fun v => st.g v = ⊤).card

/-- Total of the finite scaled g-costs over the universe. -/
def smN (es : List Edge) (start : Int) (st : AState) : ℕ :=
  (uni es start).sum fun v => gN (gridDen es) (st.g v)

/-- Consecutive elements of the list are linked by the predecessor map:
for each adjacent pair `a, b` the map sends `b` to `a`. -/
def PrevChain (p : Int → Option Int) : List Int → Prop
  | [] => True
  | [_] => True
  | a :: b :: rest => p b = some a ∧ PrevChain p (b :: rest)

/-- The C4-witness graph: a single positive self-loop on `1`, so the
goal `2` is unreachable but all costs are nonnegative. -/
def exC4p : List Edge := [⟨1, 1, 1⟩]

/-- The C1/C10 witness graph: three collinear nodes at rational
coordinates 0, 1, 2, a straight-line-distance heuristic, direct edges
`1→2→3` of cost 1 each and a costly shortcut `1→3`. -/
def cw : Int → ℚ := fun v => if v = 1 then 0 else if v = 2 then 1 else 2

def hfW : Int → Int → ℚ := fun a b => |cw b - cw a|

def esW : List Edge := [⟨1, 2, 1⟩, ⟨2, 3, 1⟩, ⟨1, 3, 3⟩]

/-! ## Lemmas and claim theorems -/

theorem select_spec (s : Finset Int) (fc : Int → WithTop ℚ) (h : s.Nonempty) :
    select s fc h ∈ s ∧
      ∀ w ∈ s, toLex (fc (select s fc h), select s fc h) ≤ toLex (fc w, w) := by
  obtain ⟨v, hv, hveq⟩ :=
    Finset.mem_image.mp
      (Finset.min'_mem (s.image fun v => toLex (fc v, v)) (h.image _))
  have hsel : select s fc h = v := by
    unfold select
    rw [← hveq]
    rfl
  constructor
  · rw [hsel]; exact hv
  · intro w hw
    have hmin := Finset.min'_le (s.image fun v => toLex (fc v, v))
      (toLex (fc w, w)) (Finset.mem_image_of_mem _ hw)
    rw [← hveq] at hmin
    rw [hsel]
    exact hmin

theorem select_mem (s : Finset Int) (fc : Int → WithTop ℚ) (h : s.Nonempty) :
    select s fc h ∈ s := (select_spec s fc h).1

theorem select_min (s : Finset Int) (fc : Int → WithTop ℚ) (h : s.Nonempty) :
    ∀ w ∈ s, toLex (fc (select s fc h), select s fc h) ≤ toLex (fc w, w) :=
  (select_spec s fc h).2

theorem select_f_le (s : Finset Int) (fc : Int → WithTop ℚ) (h : s.Nonempty)
    {w : Int} (hw : w ∈ s) : fc (select s fc h) ≤ fc w := by
  rcases (Prod.Lex.le_iff _ _).mp (select_min s fc h w hw) with h1 | h1
  · exact le_of_lt h1
  · exact le_of_eq h1.1

theorem select_singleton (fc : Int → WithTop ℚ) (x : Int) (h : ({x} : Finset Int).Nonempty) :
    select {x} fc h = x := by
  have := select_mem {x} fc h
  simpa using this

/-- Unfolding `stepF` when the open set is empty (loop guard fails,
source line 123). -/
theorem stepF_empty {nodes : List Int} {hf : Int → Int → ℚ} {es : List Edge} {goal : Int}
    {n : ℕ} {st : AState} (h : ¬ st.openS.Nonempty) :
    stepF nodes hf es goal n st = .done (some (.ok ([], ⊤))) := by
  simp only [stepF, dif_neg h]

/-- Unfolding `stepF` when the selected node is the goal (lines 92-97). -/
theorem stepF_goal {nodes : List Int} {hf : Int → Int → ℚ} {es : List Edge} {goal : Int}
    {n : ℕ} {st : AState} (hne : st.openS.Nonempty)
    (hg : select st.openS st.f hne = goal) :
    stepF nodes hf es goal n st =
      .done (match rebuildF st.prev n [goal] with
        | none => none
        | some p => some (.ok (p, st.g goal))) := by
  simp only [stepF, dif_pos hne, hg, if_pos]

/-- Unfolding `stepF` when the selected node is not the goal
(lines 99-121). -/
theorem stepF_expand {nodes : List Int} {hf : Int → Int → ℚ} {es : List Edge} {goal : Int}
    {n : ℕ} {st : AState} (hne : st.openS.Nonempty)
    (hg : ¬ select st.openS st.f hne = goal) :
    stepF nodes hf es goal n st =
      (match relaxList nodes hf goal (select st.openS st.f hne)
          { st with openS := st.openS.erase (select st.openS st.f hne),
                    closedS := insert (select st.openS st.f hne) st.closedS }
          (adj es (select st.openS st.f hne)) with
        | .error er => .done (some (.error er))
        | .ok st2 => .cont st2) := by
  simp only [stepF, dif_pos hne, if_neg hg]

theorem rebuildF_of_none {p : Int → Option Int} {x : Int} (hx : p x = none)
    (n : ℕ) (acc : List Int) : rebuildF p n (x :: acc) = some (x :: acc) := by
  cases n <;> simp [rebuildF, hx]

theorem rebuildF_mono {p : Int → Option Int} :
    ∀ {n : ℕ} {l r : List Int}, rebuildF p n l = some r → rebuildF p (n + 1) l = some r := by
  intro n
  induction n with
  | zero =>
    intro l r hl
    match l with
    | [] => simpa [rebuildF] using hl
    | x :: acc =>
      cases hpx : p x with
      | none => simpa [rebuildF, hpx] using hl
      | some u => simp [rebuildF, hpx] at hl
  | succ n ih =>
    intro l r hl
    match l with
    | [] => simpa [rebuildF] using hl
    | x :: acc =>
      cases hpx : p x with
      | none => simpa [rebuildF, hpx] using hl
      | some u =>
        simp only [rebuildF, hpx] at hl ⊢
        exact ih hl

theorem loop_mono {nodes : List Int} {hf : Int → Int → ℚ} {es : List Edge} {goal : Int} :
    ∀ {n : ℕ} {st : AState} {r : Result},
      loop nodes hf es goal n st = some r → loop nodes hf es goal (n + 1) st = some r := by
  intro n
  induction n with
  | zero => intro st r h; simp [loop] at h
  | succ n ih =>
    intro st r h
    rw [loop] at h
    rw [loop]
    by_cases hne : st.openS.Nonempty
    · by_cases hg : select st.openS st.f hne = goal
      · rw [stepF_goal hne hg] at h
        rw [stepF_goal hne hg]
        cases hreb : rebuildF st.prev n [goal] with
        | none =>
          rw [hreb] at h
          exact Option.noConfusion h
        | some pth =>
          rw [hreb] at h
          rw [rebuildF_mono hreb]
          exact h
      · rw [stepF_expand hne hg] at h
        rw [stepF_expand hne hg]
        cases hrel : relaxList nodes hf goal (select st.openS st.f hne)
            { st with openS := st.openS.erase (select st.openS st.f hne),
                      closedS := insert (select st.openS st.f hne) st.closedS }
            (adj es (select st.openS st.f hne)) with
        | error er =>
          rw [hrel] at h
          exact h
        | ok st2 =>
          rw [hrel] at h
          exact ih h
    · rw [stepF_empty hne] at h
      rw [stepF_empty hne]
      exact h

theorem loop_mono_le {nodes : List Int} {hf : Int → Int → ℚ} {es : List Edge} {goal : Int}
    {n m : ℕ} {st : AState} {r : Result} (hnm : n ≤ m)
    (h : loop nodes hf es goal n st = some r) : loop nodes hf es goal m st = some r := by
  induction m with
  | zero =>
    have hn0 : n = 0 := Nat.le_zero.mp hnm
    subst hn0
    exact h
  | succ m ih =>
    rcases Nat.lt_or_ge n (m + 1) with hlt | hge
    · exact loop_mono (ih (by omega))
    · have : n = m + 1 := le_antisymm hnm hge
      subst this
      exact h

/-! ## C3: trivial query -/

/-- C3.  Trivial query: for every graph and every node id `x` present in
the graph, `astar(nodes, edges, x, x)` returns the single-node path
`[x]` with total cost `0`, without relaxing any edge: the result is
already produced with fuel `1`, i.e. by the very first loop iteration's
goal test, before any expansion happens. -/
theorem astar_trivial_query_C3 (nodes : List Int) (hf : Int → Int → ℚ) (es : List Edge)
    (x : Int) (hx : x ∈ nodes) (fuel : ℕ) (hfuel : 1 ≤ fuel) :
    astar nodes hf es x x fuel = some (.ok ([x], (0 : WithTop ℚ))) := by
  obtain ⟨n, rfl⟩ : ∃ n, fuel = n + 1 := ⟨fuel - 1, by omega⟩
  have hinit : astarInit nodes hf x x = .ok
      { openS := {x}
        closedS := ∅
        g := fun v => if v = x then ((0 : ℚ) : WithTop ℚ) else ⊤
        f := fun v => if v = x then ((hf x x : ℚ) : WithTop ℚ) else ⊤
        prev := fun _ => none } := by
    simp [astarInit, hcall, if_pos hx]
  have hrun : astar nodes hf es x x (n + 1) =
      loop nodes hf es x (n + 1)
        { openS := {x}
          closedS := ∅
          g := fun v => if v = x then ((0 : ℚ) : WithTop ℚ) else ⊤
          f := fun v => if v = x then ((hf x x : ℚ) : WithTop ℚ) else ⊤
          prev := fun _ => none } := by
    rw [astar, hinit]
  rw [hrun]
  rw [loop]
  have hne : ({x} : Finset Int).Nonempty := Finset.singleton_nonempty x
  have hsel : select ({x} : Finset Int)
      (fun v => if v = x then ((hf x x : ℚ) : WithTop ℚ) else ⊤) hne = x :=
    select_singleton _ x hne
  rw [stepF_goal hne hsel]
  rw [rebuildF_of_none rfl]
  simp

/-- Witness for C3 at a concrete input. -/
theorem astar_trivial_query_C3_witness :
    (5 : Int) ∈ [(5 : Int)] ∧
      astar [5] (fun _ _ => 0) [] 5 5 1 = some (.ok ([5], (0 : WithTop ℚ))) :=
  ⟨by decide, astar_trivial_query_C3 [5] (fun _ _ => 0) [] 5 (by decide) 1 (by decide)⟩

/-! ## C5: unknown start or goal id -/

/-- C5.  Unknown id handling: if the start id or the goal id is not in
the graph's node set, `astar` fails fast — for every fuel, including
`0`, it immediately surfaces the `KeyError` raised by the heuristic's
`nodes[...]` lookup at initialisation (source line 86), before the
search loop runs; the error value names the missing id (the goal id is
looked up first, as in line 69), and the unknown id is never treated as
an isolated node. -/
theorem astar_unknown_id_C5 (nodes : List Int) (hf : Int → Int → ℚ) (es : List Edge)
    (start goal : Int) (h : start ∉ nodes ∨ goal ∉ nodes) (fuel : ℕ) :
    ∃ k, astar nodes hf es start goal fuel = some (.error (.keyError k)) ∧
      (k = start ∨ k = goal) ∧ k ∉ nodes := by
  by_cases hg : goal ∈ nodes
  · have hs : start ∉ nodes := h.resolve_right fun hgn => hgn hg
    refine ⟨start, ?_, Or.inl rfl, hs⟩
    simp [astar, astarInit, hcall, if_pos hg, if_neg hs]
  · refine ⟨goal, ?_, Or.inr rfl, hg⟩
    simp [astar, astarInit, hcall, if_neg hg]

/-- Witness for C5 at a concrete input. -/
theorem astar_unknown_id_C5_witness :
    ((1 : Int) ∉ ([2] : List Int) ∨ (3 : Int) ∉ ([2] : List Int)) ∧
      ∃ k, astar [2] (fun _ _ => 0) [] 1 3 4 = some (.error (.keyError k)) ∧
        (k = 1 ∨ k = 3) ∧ k ∉ ([2] : List Int) :=
  ⟨Or.inl (by decide), astar_unknown_id_C5 [2] (fun _ _ => 0) [] 1 3 (Or.inl (by decide)) 4⟩

/-! ## C6: selection rule and determinism -/

/-- C6.  Selection rule and determinism.  (1) `select` (the embedding of
`min(open_set, key=lambda n: (f_cost[n], n))`, line 90) picks a member
of the open set of minimum f-cost, breaking ties by smallest node id.
(2) `astar` is a deterministic function: equal graphs, heuristics,
start, goal and fuel give identical results.  (3) On a graph with two
equal-cost optimal paths `1→2→4` and `1→3→4`, the path through the
lower node id `2` is returned. -/
theorem astar_selection_determinism_C6 :
    (∀ (s : Finset Int) (fc : Int → WithTop ℚ) (h : s.Nonempty),
        select s fc h ∈ s ∧
          ∀ w ∈ s, fc (select s fc h) < fc w ∨
            (fc (select s fc h) = fc w ∧ select s fc h ≤ w)) ∧
    (∀ (n1 n2 : List Int) (h1 h2 : Int → Int → ℚ) (e1 e2 : List Edge)
        (s1 s2 g1 g2 : Int) (fl1 fl2 : ℕ),
        n1 = n2 → (∀ a b, h1 a b = h2 a b) → e1 = e2 → s1 = s2 → g1 = g2 → fl1 = fl2 →
        astar n1 h1 e1 s1 g1 fl1 = astar n2 h2 e2 s2 g2 fl2) ∧
    astar [1, 2, 3, 4] (fun _ _ => 0)
        [⟨1, 2, 1⟩, ⟨2, 4, 1⟩, ⟨1, 3, 1⟩, ⟨3, 4, 1⟩] 1 4 10 =
      some (.ok ([1, 2, 4], ((2 : ℚ) : WithTop ℚ))) := by
  refine ⟨?_, ?_, by decide⟩
  · intro s fc h
    refine ⟨select_mem s fc h, fun w hw => ?_⟩
    exact (Prod.Lex.le_iff _ _).mp (select_min s fc h w hw)
  · intro n1 n2 h1 h2 e1 e2 s1 s2 g1 g2 fl1 fl2 hn hh he hs hg hf
    have hfun : h1 = h2 := funext fun a => funext fun b => hh a b
    subst hn; subst hfun; subst he; subst hs; subst hg; subst hf
    rfl

/-- Witness for C6: the determinism conjunct applied at a concrete input. -/
theorem astar_selection_determinism_C6_witness :
    astar [1] (fun _ _ => 0) [] 1 1 3 = astar [1] (fun _ _ => 0) [] 1 1 3 :=
  astar_selection_determinism_C6.2.1 [1] [1] (fun _ _ => 0) (fun _ _ => 0) [] []
    1 1 1 1 3 3 rfl (fun _ _ => rfl) rfl rfl rfl rfl

/-! ## C7: reopening on improvement -/

/-- C7.  Reopening on improvement.  (1) Whenever a relaxed neighbour
`e.1` is in the closed set and the tentative g-cost `g[cur] + cost` is
strictly below its recorded g-cost, the relaxation step (lines 107-121)
moves it from closed back into open and records the improved g-cost,
f-cost and predecessor.  (2) Concretely, on a graph where node `2` is
first reached via the cost-10 edge `1→2` and later, after `2` was
already expanded, via the cheaper route `1→3→2` (heuristic values from
the coordinates used: node 3 sits at distance 10 from the goal, so it is
expanded after node 2), the reported cost `3` uses the shorter route
`1→3→2→4`. -/
theorem astar_reopening_C7 :
    (∀ (nodes : List Int) (hf : Int → Int → ℚ) (goal cur : Int) (st : AState)
        (e : Int × ℚ),
        e.1 ∈ st.closedS → st.g cur + (e.2 : WithTop ℚ) < st.g e.1 →
        e.1 ∈ nodes → goal ∈ nodes →
        ∃ st', relaxEdge nodes hf goal cur st e = .ok st' ∧
          e.1 ∈ st'.openS ∧ e.1 ∉ st'.closedS ∧
          st'.g e.1 = st.g cur + (e.2 : WithTop ℚ) ∧
          st'.f e.1 = st.g cur + (e.2 : WithTop ℚ) + (hf e.1 goal : WithTop ℚ) ∧
          st'.prev e.1 = some cur) ∧
    astar [1, 2, 3, 4]
        (fun a b => |(if b = 3 then (10 : ℚ) else 0) - (if a = 3 then (10 : ℚ) else 0)|)
        [⟨1, 2, 10⟩, ⟨1, 3, 1⟩, ⟨3, 2, 1⟩, ⟨2, 4, 1⟩] 1 4 10 =
      some (.ok ([1, 3, 2, 4], ((3 : ℚ) : WithTop ℚ))) := by
  constructor
  · intro nodes hf goal cur st e hclosed himp hen hgn
    have hterm : hcall nodes hf e.1 goal = .ok (hf e.1 goal) := by
      simp [hcall, if_pos hen, if_pos hgn]
    refine ⟨update { st with closedS := st.closedS.erase e.1, openS := insert e.1 st.openS }
      cur e.1 (st.g cur + (e.2 : WithTop ℚ)) (hf e.1 goal), ?_, ?_, ?_, ?_, ?_, ?_⟩
    · simp only [relaxEdge, if_pos (And.intro hclosed himp)]
      rw [if_neg (by simp)]
      rw [if_neg (not_le.mpr himp)]
      rw [hterm]
    · simp [update]
    · simp [update, Finset.mem_erase]
    · simp [update]
    · simp [update]
    · simp [update]
  · decide

/-- Witness for C7: the reopening conjunct applied at a concrete state
in which node `3` is closed with recorded g-cost `5` and is reached from
node `2` (g-cost `0`) by an edge of cost `1`. -/
theorem astar_reopening_C7_witness :
    ∃ st', relaxEdge [3, 4] (fun _ _ => 0) 4 2
        { openS := ∅
          closedS := {3}
          g := fun v => if v = 2 then ((0 : ℚ) : WithTop ℚ)
            else if v = 3 then ((5 : ℚ) : WithTop ℚ) else ⊤
          f := fun _ => ⊤
          prev := fun _ => none } (3, 1) = .ok st' ∧
      (3 : Int) ∈ st'.openS ∧ (3 : Int) ∉ st'.closedS ∧
      st'.g 3 = ((0 : ℚ) : WithTop ℚ) + ((1 : ℚ) : WithTop ℚ) ∧
      st'.f 3 = ((0 : ℚ) : WithTop ℚ) + ((1 : ℚ) : WithTop ℚ) + ((0 : ℚ) : WithTop ℚ) ∧
      st'.prev 3 = some 2 :=
  astar_reopening_C7.1 [3, 4] (fun _ _ => 0) 4 2 _ (3, 1)
    (by decide) (by decide) (by decide) (by decide)

/-! ## C9: the graph store is read-only during a search

To state the frame property, the Python dictionaries are modelled
explicitly.  `EdgeDict` is the contents of the `defaultdict(list)`
built by `load_connections`; `dGet` models the non-inserting
`edges.get(k, [])` used at source line 103 and `dGetItem` models what
`edges[k]` (defaultdict `__getitem__`, *not* used by the search) would
do, namely insert an empty entry on a missing key.  `astarT` threads
the edge store through every loop iteration and returns it alongside
the result.  The node store is a plain dict, read only inside `h`
(modelled by `hcall`/`hcallT`): a plain-dict read returns a value or
raises `KeyError` and never writes. -/

theorem stepT_eq (ns : List Int) (hf : Int → Int → ℚ) (es : List Edge) (goal : Int)
    (n : ℕ) (st : AState) (d : EdgeDict)
    (hd : ∀ u, dGet d u = adj es u) :
    stepT ns hf goal n st d = (stepF ns hf es goal n st, d) := by
  unfold stepT
  by_cases hne : st.openS.Nonempty
  · rw [dif_pos hne]
    by_cases hg : select st.openS st.f hne = goal
    · rw [stepF_goal hne hg]
      simp only [hg, if_pos]
    · rw [stepF_expand hne hg]
      simp only [if_neg hg]
      rw [hd]
      rcases hrel : relaxList ns hf goal (select st.openS st.f hne)
          { st with openS := st.openS.erase (select st.openS st.f hne),
                    closedS := insert (select st.openS st.f hne) st.closedS }
          (adj es (select st.openS st.f hne)) with er | st2 <;> simp [hrel]
  · rw [dif_neg hne, stepF_empty hne]

theorem loopT_eq (ns : List Int) (hf : Int → Int → ℚ) (es : List Edge) (goal : Int) :
    ∀ (n : ℕ) (st : AState) (d : EdgeDict),
      (∀ u, dGet d u = adj es u) →
      loopT ns hf goal n st d = (loop ns hf es goal n st, d) := by
  intro n
  induction n with
  | zero => intro st d _; rfl
  | succ n ih =>
    intro st d hd
    rw [loopT, loop, stepT_eq ns hf es goal n st d hd]
    rcases hstep : stepF ns hf es goal n st with r | st' <;> simp [ih _ _ hd]

theorem dGet_dAppend (d : EdgeDict) (k : Int) (v : Int × ℚ) (u : Int) :
    dGet (dAppend d k v) u = dGet d u ++ (if k = u then [v] else []) := by
  induction d with
  | nil =>
    by_cases hku : k = u <;> simp [dAppend, dGet, dLookup, hku]
  | cons p rest ih =>
    obtain ⟨k', l⟩ := p
    by_cases hk : k' = k
    · subst hk
      by_cases hku : k' = u <;> simp [dAppend, dGet, dLookup, hku]
    · by_cases hku : k' = u
      · subst hku
        have hkne : ¬ k = k' := fun h => hk h.symm
        simp [dAppend, dGet, dLookup, hk, hkne]
      · simp only [dAppend, if_neg hk, dGet, dLookup, if_neg hku]
        exact ih

theorem adj_cons (e : Edge) (es : List Edge) (u : Int) :
    adj (e :: es) u = (if e.src = u then [(e.dst, e.cost)] else []) ++ adj es u := by
  by_cases h : e.src = u <;> simp [adj, h]

theorem dGet_buildDict_aux :
    ∀ (es : List Edge) (d : EdgeDict) (u : Int),
      dGet (es.foldl (fun d e => dAppend d e.src (e.dst, e.cost)) d) u =
        dGet d u ++ adj es u := by
  intro es
  induction es with
  | nil => intro d u; simp [adj]
  | cons e rest ih =>
    intro d u
    rw [List.foldl_cons, ih, dGet_dAppend, adj_cons, List.append_assoc]

/-- The `defaultdict` contents built by `load_connections` agree with
the filter-based adjacency view of the record list. -/
theorem dGet_buildDict (es : List Edge) (u : Int) :
    dGet (buildDict es) u = adj es u := by
  rw [buildDict, dGet_buildDict_aux]
  simp [dGet, dLookup]

/-- C9.  Graph immutability (frame).  (1) For every invocation, the
threaded search `astarT` returns the edge store exactly as it received
it, and computes exactly `astar`: the search reads the store only
through the non-inserting `edges.get`.  (2) In particular this holds
for the store built by `load_connections`.  (3) Every nodes-store read
(`hcallT`) returns the node store unchanged.  (4) In contrast, a
`defaultdict` `edges[k]` access (`dGetItem`, which the search never
performs) would leave the store unchanged iff the key were already
present — on a missing key it would insert an entry. -/
theorem astar_frame_C9 (hf : Int → Int → ℚ) (start goal : Int) (fuel : ℕ) :
    (∀ (ns : List Int) (es : List Edge) (d : EdgeDict),
      (∀ u, dGet d u = adj es u) →
      astarT ns hf d start goal fuel = (astar ns hf es start goal fuel, d)) ∧
    (∀ (ns : List Int) (es : List Edge),
      astarT ns hf (buildDict es) start goal fuel =
        (astar ns hf es start goal fuel, buildDict es)) ∧
    (∀ (ns : List Int) (a b : Int), (hcallT ns hf a b).2 = ns) ∧
    (∀ (d : EdgeDict) (k : Int), (dGetItem d k).2 = d ↔ (dLookup d k).isSome) := by
  have hmain : ∀ (ns : List Int) (es : List Edge) (d : EdgeDict),
      (∀ u, dGet d u = adj es u) →
      astarT ns hf d start goal fuel = (astar ns hf es start goal fuel, d) := by
    intro ns es d hd
    unfold astarT astar
    rcases hres : astarInit ns hf start goal with er | st0
    · rfl
    · show loopT ns hf goal fuel st0 d = (loop ns hf es goal fuel st0, d)
      exact loopT_eq ns hf es goal fuel st0 d hd
  refine ⟨hmain, fun ns es => hmain ns es (buildDict es) (dGet_buildDict es),
    fun _ _ _ => rfl, ?_⟩
  intro d k
  rcases hlk : dLookup d k with _ | l
  · simp only [dGetItem, hlk, Option.isSome_none]
    constructor
    · intro hcontra
      have : d.length = d.length + 1 := by
        conv_lhs => rw [← hcontra]
        simp
      omega
    · intro hcontra; cases hcontra
  · simp [dGetItem, hlk]

/-- Witness for C9: the frame equation applied at a concrete invocation. -/
theorem astar_frame_C9_witness :
    astarT [1, 2] (fun _ _ => 0) (buildDict [⟨1, 2, 1⟩]) 1 2 5 =
      (astar [1, 2] (fun _ _ => 0) [⟨1, 2, 1⟩] 1 2 5, buildDict [⟨1, 2, 1⟩]) :=
  (astar_frame_C9 (fun _ _ => 0) 1 2 5).2.1 [1, 2] [⟨1, 2, 1⟩]

/-! ## Divergence of the search loop on negative edge costs

With a negative self-loop reachable from the start, the
reopen-on-improvement branch fires on every iteration: the node's
g-cost decreases forever and the `while` loop never exits.  In the
fuelled embedding this shows as `astar ... fuel = none` for *every*
fuel. -/

theorem relaxC4 (k : ℕ) (stx : AState)
    (hcl : stx.closedS = {1})
    (hg1 : stx.g 1 = ((-(k : ℚ) : ℚ) : WithTop ℚ)) :
    relaxEdge [1, 2] hfz 2 1 stx (1, -1) = .ok
      { openS := insert 1 stx.openS
        closedS := ∅
        g := fun v => if v = 1 then ((-(k + 1 : ℚ) : ℚ) : WithTop ℚ) else stx.g v
        f := fun v => if v = 1 then ((-(k + 1 : ℚ) : ℚ) : WithTop ℚ) else stx.f v
        prev := fun v => if v = 1 then some 1 else stx.prev v } := by
  have htent : stx.g 1 + ((-1 : ℚ) : WithTop ℚ) < stx.g 1 := by
    rw [hg1, ← WithTop.coe_add]
    exact WithTop.coe_lt_coe.mpr (by linarith)
  have hsum : stx.g 1 + ((-1 : ℚ) : WithTop ℚ) = ((-(k + 1 : ℚ) : ℚ) : WithTop ℚ) := by
    rw [hg1, ← WithTop.coe_add]
    congr 1
    ring
  have hsum0 : stx.g 1 + ((-1 : ℚ) : WithTop ℚ) + ((0 : ℚ) : WithTop ℚ) =
      ((-(k + 1 : ℚ) : ℚ) : WithTop ℚ) := by
    rw [hsum, ← WithTop.coe_add]
    congr 1
    ring
  have hcalleq : hcall [1, 2] hfz 1 2 = .ok 0 := by decide
  simp only [relaxEdge]
  rw [if_pos (And.intro (by rw [hcl]; exact Finset.mem_singleton_self 1) htent)]
  rw [if_neg (by simp)]
  rw [if_neg (not_le.mpr htent)]
  rw [hcalleq]
  refine congrArg Except.ok ?_
  simp only [update]
  refine AState.ext rfl ?_ ?_ ?_ rfl
  · show stx.closedS.erase 1 = ∅
    rw [hcl]
    decide
  · show (fun v => if v = 1 then stx.g 1 + ((-1 : ℚ) : WithTop ℚ) else stx.g v) = _
    funext v
    by_cases hv : v = 1
    · subst hv
      exact hsum
    · rw [if_neg hv]
      exact (if_neg hv).symm
  · show (fun v => if v = 1 then stx.g 1 + ((-1 : ℚ) : WithTop ℚ) + ((0 : ℚ) : WithTop ℚ)
      else stx.f v) = _
    funext v
    by_cases hv : v = 1
    · subst hv
      exact hsum0
    · rw [if_neg hv]
      exact (if_neg hv).symm

theorem stepF_stC4 (n k : ℕ) :
    stepF [1, 2] hfz exC4 2 n (stC4 k) = .cont (stC4 (k + 1)) := by
  have hne : (stC4 k).openS.Nonempty := ⟨1, by simp [stC4]⟩
  have hsel : select (stC4 k).openS (stC4 k).f hne = 1 := by
    have := select_mem (stC4 k).openS (stC4 k).f hne
    simpa [stC4] using this
  rw [stepF_expand hne (by rw [hsel]; decide)]
  rw [hsel]
  have hadj : adj exC4 1 = [(1, -1)] := by decide
  rw [hadj]
  rw [relaxList]
  rw [relaxC4 k _ (by simp [stC4]) (by simp [stC4])]
  refine congrArg StepOut.cont ?_
  refine AState.ext (by simp [stC4]) rfl ?_ ?_ ?_
  · funext v
    show (if v = 1 then ((-(k + 1 : ℚ) : ℚ) : WithTop ℚ) else (stC4 k).g v) = (stC4 (k + 1)).g v
    by_cases hv : v = 1 <;> simp [stC4, hv]
  · funext v
    show (if v = 1 then ((-(k + 1 : ℚ) : ℚ) : WithTop ℚ) else (stC4 k).f v) = (stC4 (k + 1)).f v
    by_cases hv : v = 1 <;> simp [stC4, hv]
  · funext v
    show (if v = 1 then some 1 else (stC4 k).prev v) = (stC4 (k + 1)).prev v
    by_cases hv : v = 1 <;> simp [stC4, hv]

theorem loop_stC4 : ∀ (n k : ℕ), loop [1, 2] hfz exC4 2 n (stC4 k) = none := by
  intro n
  induction n with
  | zero => intro k; rfl
  | succ n ih =>
    intro k
    rw [loop, stepF_stC4]
    exact ih (k + 1)

theorem astarInit_exC4 : astarInit [1, 2] hfz 1 2 = .ok stC4init := rfl

theorem stepF_stC4init (n : ℕ) :
    stepF [1, 2] hfz exC4 2 n stC4init = .cont (stC4 1) := by
  have hne : stC4init.openS.Nonempty := ⟨1, by simp [stC4init]⟩
  have hsel : select stC4init.openS stC4init.f hne = 1 := by
    have := select_mem stC4init.openS stC4init.f hne
    simpa [stC4init] using this
  rw [stepF_expand hne (by rw [hsel]; decide)]
  rw [hsel]
  have hadj : adj exC4 1 = [(1, -1)] := by decide
  rw [hadj]
  rw [relaxList]
  rw [relaxC4 0 _ (by simp [stC4init]) (by simp [stC4init])]
  refine congrArg StepOut.cont ?_
  refine AState.ext (by simp [stC4init, stC4]) rfl ?_ ?_ ?_
  · funext v
    show (if v = 1 then ((-(0 + 1 : ℚ) : ℚ) : WithTop ℚ) else stC4init.g v) = (stC4 1).g v
    by_cases hv : v = 1 <;> simp [stC4init, stC4, hv]
  · funext v
    show (if v = 1 then ((-(0 + 1 : ℚ) : ℚ) : WithTop ℚ) else stC4init.f v) = (stC4 1).f v
    by_cases hv : v = 1 <;> simp [stC4init, stC4, hfz, hv]
  · funext v
    show (if v = 1 then some 1 else stC4init.prev v) = (stC4 1).prev v
    by_cases hv : v = 1 <;> simp [stC4init, stC4, hv]

theorem astar_exC4_diverges : ∀ n, astar [1, 2] hfz exC4 1 2 n = none := by
  intro n
  match n with
  | 0 => rfl
  | n + 1 =>
    have hrun : astar [1, 2] hfz exC4 1 2 (n + 1) =
        loop [1, 2] hfz exC4 2 (n + 1) stC4init := by
      rw [astar, astarInit_exC4]
    rw [hrun, loop, stepF_stC4init]
    exact loop_stC4 n 1

/-- No directed walk leads from `1` to `2` in the C4 counterexample
graph: the only edge is the self-loop on `1`. -/
theorem exC4_no_walk : ∀ w, ¬ IsWalkFrom exC4 1 2 w := by
  intro w
  induction w with
  | nil => intro h; exact absurd h (by decide : ¬ ((1 : Int) = 2))
  | cons e rest ih =>
    intro h
    obtain ⟨hmem, _, hrest⟩ := h
    have he : e = ⟨1, 1, -1⟩ := by simpa [exC4] using hmem
    subst he
    exact ih hrest

/-- Counterexample to C4 as stated.  In the graph with the single edge
`1 → 1` of cost `-1`, both ids `1` and `2` are present, the goal `2` is
unreachable — yet `astar` does not return the empty path with infinite
cost: it returns nothing at all, for any amount of fuel (the loop
diverges, reopening node `1` forever). -/
theorem astar_unreachable_counterexample_C4 :
    (∀ w, ¬ IsWalkFrom exC4 1 2 w) ∧
      (1 : Int) ∈ ([1, 2] : List Int) ∧ (2 : Int) ∈ ([1, 2] : List Int) ∧
      ¬ ∃ (n : ℕ) (r : Result), astar [1, 2] hfz exC4 1 2 n = some r :=
  ⟨exC4_no_walk, by decide, by decide, by
    rintro ⟨n, r, hr⟩
    rw [astar_exC4_diverges n] at hr
    cases hr⟩

theorem relaxC8 (q : ℚ) (stx : AState)
    (hcl : (2 : Int) ∈ stx.closedS)
    (hg2 : stx.g 2 = ((q : ℚ) : WithTop ℚ)) :
    relaxEdge [1, 2, 3] hfz 3 2 stx (2, -1) = .ok
      { openS := insert 2 stx.openS
        closedS := stx.closedS.erase 2
        g := fun v => if v = 2 then ((q - 1 : ℚ) : WithTop ℚ) else stx.g v
        f := fun v => if v = 2 then ((q - 1 : ℚ) : WithTop ℚ) else stx.f v
        prev := fun v => if v = 2 then some 2 else stx.prev v } := by
  have htent : stx.g 2 + ((-1 : ℚ) : WithTop ℚ) < stx.g 2 := by
    rw [hg2, ← WithTop.coe_add]
    exact WithTop.coe_lt_coe.mpr (by linarith)
  have hsum : stx.g 2 + ((-1 : ℚ) : WithTop ℚ) = ((q - 1 : ℚ) : WithTop ℚ) := by
    rw [hg2, ← WithTop.coe_add]
    exact congrArg _ (by ring)
  have hsum0 : stx.g 2 + ((-1 : ℚ) : WithTop ℚ) + ((0 : ℚ) : WithTop ℚ) =
      ((q - 1 : ℚ) : WithTop ℚ) := by
    rw [hsum, ← WithTop.coe_add]
    exact congrArg _ (by ring)
  have hcalleq : hcall [1, 2, 3] hfz 2 3 = .ok 0 := by decide
  simp only [relaxEdge]
  rw [if_pos (And.intro hcl htent)]
  rw [if_neg (by simp)]
  rw [if_neg (not_le.mpr htent)]
  rw [hcalleq]
  refine congrArg Except.ok ?_
  simp only [update]
  refine AState.ext rfl rfl ?_ ?_ rfl
  · funext v
    by_cases hv : v = 2
    · subst hv
      exact hsum
    · exact (if_neg hv).trans (if_neg hv).symm
  · funext v
    by_cases hv : v = 2
    · subst hv
      exact hsum0
    · exact (if_neg hv).trans (if_neg hv).symm

theorem stepF_stC8 (n k : ℕ) :
    stepF [1, 2, 3] hfz exC8 3 n (stC8 k) = .cont (stC8 (k + 1)) := by
  have hne : (stC8 k).openS.Nonempty := ⟨2, by simp [stC8]⟩
  have hsel : select (stC8 k).openS (stC8 k).f hne = 2 := by
    have := select_mem (stC8 k).openS (stC8 k).f hne
    simpa [stC8] using this
  rw [stepF_expand hne (by rw [hsel]; decide)]
  rw [hsel]
  have hadj : adj exC8 2 = [(2, -1)] := by decide
  rw [hadj]
  rw [relaxList]
  rw [relaxC8 (-(k : ℚ)) _ (by simp) (by simp [stC8])]
  refine congrArg StepOut.cont ?_
  refine AState.ext (by simp [stC8]) (by simp [stC8]) ?_ ?_ ?_
  · funext v
    show (if v = 2 then ((-(k : ℚ) - 1 : ℚ) : WithTop ℚ) else (stC8 k).g v) = (stC8 (k + 1)).g v
    by_cases hv : v = 2
    · subst hv
      simp only [if_pos rfl, stC8]
      rw [show (-(k : ℚ) - 1 : ℚ) = -((k : ℚ) + 1) by ring]
      norm_num
    · simp [stC8, hv]
  · funext v
    show (if v = 2 then ((-(k : ℚ) - 1 : ℚ) : WithTop ℚ) else (stC8 k).f v) = (stC8 (k + 1)).f v
    by_cases hv : v = 2
    · subst hv
      simp only [if_pos rfl, stC8]
      rw [show (-(k : ℚ) - 1 : ℚ) = -((k : ℚ) + 1) by ring]
      norm_num
    · simp [stC8, hv]
  · funext v
    show (if v = 2 then some 2 else (stC8 k).prev v) = (stC8 (k + 1)).prev v
    by_cases hv : v = 2 <;> simp [stC8, hv]

theorem stepF_stC8A (n : ℕ) :
    stepF [1, 2, 3] hfz exC8 3 n stC8A = .cont (stC8 1) := by
  have hne : stC8A.openS.Nonempty := ⟨2, by simp [stC8A]⟩
  have hsel : select stC8A.openS stC8A.f hne = 2 := by
    have := select_mem stC8A.openS stC8A.f hne
    simpa [stC8A] using this
  rw [stepF_expand hne (by rw [hsel]; decide)]
  rw [hsel]
  have hadj : adj exC8 2 = [(2, -1)] := by decide
  rw [hadj]
  rw [relaxList]
  rw [relaxC8 0 _ (by simp) (by simp [stC8A])]
  refine congrArg StepOut.cont ?_
  refine AState.ext (by simp [stC8A, stC8]) (by simp [stC8A, stC8]) ?_ ?_ ?_
  · funext v
    show (if v = 2 then ((0 - 1 : ℚ) : WithTop ℚ) else stC8A.g v) = (stC8 1).g v
    by_cases hv : v = 2
    · subst hv
      simp [stC8]
    · simp [stC8A, stC8, hv]
  · funext v
    show (if v = 2 then ((0 - 1 : ℚ) : WithTop ℚ) else stC8A.f v) = (stC8 1).f v
    by_cases hv : v = 2
    · subst hv
      simp [stC8]
    · simp [stC8A, stC8, hv]
  · funext v
    show (if v = 2 then some 2 else stC8A.prev v) = (stC8 1).prev v
    by_cases hv : v = 2 <;> simp [stC8A, stC8, hv]

theorem stepF_stC8init (n : ℕ) :
    stepF [1, 2, 3] hfz exC8 3 n stC8init = .cont stC8A := by
  have hne : stC8init.openS.Nonempty := ⟨1, by simp [stC8init]⟩
  have hsel : select stC8init.openS stC8init.f hne = 1 := by
    have := select_mem stC8init.openS stC8init.f hne
    simpa [stC8init] using this
  rw [stepF_expand hne (by rw [hsel]; decide)]
  rw [hsel]
  have hadj : adj exC8 1 = [(2, 0)] := by decide
  rw [hadj]
  rw [relaxList]
  have hcalleq : hcall [1, 2, 3] hfz 2 3 = .ok 0 := by decide
  have hrelax : relaxEdge [1, 2, 3] hfz 3 1
      { stC8init with openS := stC8init.openS.erase 1, closedS := insert 1 stC8init.closedS }
      (2, 0) = .ok stC8A := by
    simp only [relaxEdge]
    have hro : ¬ ((2 : Int) ∈ insert (1 : Int) stC8init.closedS ∧
        stC8init.g 1 + ((0 : ℚ) : WithTop ℚ) < stC8init.g 2) := by
      intro hcon
      exact absurd hcon.1 (by simp [stC8init])
    rw [if_neg hro]
    have huns : (2 : Int) ∉ stC8init.openS.erase 1 ∧
        (2 : Int) ∉ insert (1 : Int) stC8init.closedS := by
      constructor <;> simp [stC8init]
    rw [if_pos huns]
    rw [hcalleq]
    refine congrArg Except.ok ?_
    simp only [update]
    refine AState.ext (by simp [stC8init, stC8A]) (by simp [stC8init, stC8A])
      ?_ ?_ ?_
    · funext v
      show (if v = 2 then stC8init.g 1 + ((0 : ℚ) : WithTop ℚ) else stC8init.g v) = stC8A.g v
      by_cases hv : v = 2
      · subst hv
        simp [stC8init, stC8A]
      · simp [stC8init, stC8A, hv]
    · funext v
      show (if v = 2 then stC8init.g 1 + ((0 : ℚ) : WithTop ℚ) + ((0 : ℚ) : WithTop ℚ)
        else stC8init.f v) = stC8A.f v
      by_cases hv : v = 2
      · subst hv
        simp [stC8init, stC8A]
      · simp [stC8init, stC8A, hv]
    · funext v
      show (if v = 2 then some 1 else stC8init.prev v) = stC8A.prev v
      by_cases hv : v = 2 <;> simp [stC8init, stC8A, hv]
  rw [hrelax]
  rfl

theorem loop_stC8 : ∀ (n k : ℕ), loop [1, 2, 3] hfz exC8 3 n (stC8 k) = none := by
  intro n
  induction n with
  | zero => intro k; rfl
  | succ n ih =>
    intro k
    rw [loop, stepF_stC8]
    exact ih (k + 1)

theorem loop_stC8A : ∀ n, loop [1, 2, 3] hfz exC8 3 n stC8A = none := by
  intro n
  match n with
  | 0 => rfl
  | n + 1 =>
    rw [loop, stepF_stC8A]
    exact loop_stC8 n 1

theorem astar_exC8_diverges : ∀ n, astar [1, 2, 3] hfz exC8 1 3 n = none := by
  intro n
  match n with
  | 0 => rfl
  | n + 1 =>
    have hrun : astar [1, 2, 3] hfz exC8 1 3 (n + 1) =
        loop [1, 2, 3] hfz exC8 3 (n + 1) stC8init := rfl
    rw [hrun, loop, stepF_stC8init]
    exact loop_stC8A n

/-- Counterexample to C8 as stated.  In the graph with edges `1 → 2`
(cost `0`) and the self-loop `2 → 2` (cost `-1`), the ids `1` and `3`
are both present, yet `astar` neither returns a result nor raises: for
every fuel the loop is still running (node `2` is reopened forever with
ever-decreasing g-cost), so the search infinite-loops. -/
theorem astar_termination_counterexample_C8 :
    (1 : Int) ∈ ([1, 2, 3] : List Int) ∧ (3 : Int) ∈ ([1, 2, 3] : List Int) ∧
      ¬ ∃ (n : ℕ) (r : Result), astar [1, 2, 3] hfz exC8 1 3 n = some r :=
  ⟨by decide, by decide, by
    rintro ⟨n, r, hr⟩
    rw [astar_exC8_diverges n] at hr
    cases hr⟩

/-! ## Helper lemmas: adjacency, cheapest parallel edges, walks -/

theorem adj_mem {es : List Edge} {u : Int} {p : Int × ℚ} :
    p ∈ adj es u ↔ ∃ e ∈ es, e.src = u ∧ e.dst = p.1 ∧ e.cost = p.2 := by
  constructor
  · intro hp
    obtain ⟨e, he, hpe⟩ := List.mem_map.mp hp
    have hsrc := List.mem_filter.mp he
    refine ⟨e, hsrc.1, by simpa using hsrc.2, ?_, ?_⟩
    · rw [← hpe]
    · rw [← hpe]
  · rintro ⟨e, he, hsrc, hdst, hcost⟩
    refine List.mem_map.mpr ⟨e, List.mem_filter.mpr ⟨he, by simpa using hsrc⟩, ?_⟩
    rw [hdst, hcost]

theorem foldr_min_nonneg :
    ∀ l : List (Int × ℚ), (∀ p ∈ l, (0 : ℚ) ≤ p.2) →
      (0 : WithTop ℚ) ≤ l.foldr (fun p acc => min (p.2 : WithTop ℚ) acc) ⊤ := by
  intro l
  induction l with
  | nil => intro _; exact le_top
  | cons q rest ih =>
    intro hmem
    refine le_min ?_ (ih fun p hp => hmem p (List.mem_cons_of_mem q hp))
    have h0 : (0 : ℚ) ≤ q.2 := hmem q (List.mem_cons_self q rest)
    rw [show (0 : WithTop ℚ) = ((0 : ℚ) : WithTop ℚ) from rfl]
    exact WithTop.coe_le_coe.mpr h0

theorem foldr_min_le {a : Int × ℚ} :
    ∀ l : List (Int × ℚ), a ∈ l →
      l.foldr (fun p acc => min (p.2 : WithTop ℚ) acc) ⊤ ≤ (a.2 : WithTop ℚ) := by
  intro l
  induction l with
  | nil => intro h; cases h
  | cons q rest ih =>
    intro hmem
    rcases List.mem_cons.mp hmem with h | h
    · subst h
      exact min_le_left _ _
    · exact le_trans (min_le_right _ _) (ih h)

theorem cminW_nonneg {es : List Edge} (hc : ∀ e ∈ es, 0 ≤ e.cost) (u v : Int) :
    0 ≤ cminW es u v := by
  refine foldr_min_nonneg _ fun p hp => ?_
  have hadj : p ∈ adj es u := (List.mem_filter.mp hp).1
  obtain ⟨e, he, _, _, hcost⟩ := adj_mem.mp hadj
  rw [← hcost]
  exact hc e he

theorem cminW_le {es : List Edge} {u : Int} {p : Int × ℚ}
    (hp : p ∈ adj es u) : cminW es u p.1 ≤ (p.2 : WithTop ℚ) :=
  foldr_min_le _ (List.mem_filter.mpr ⟨hp, by simp⟩)

/-- Appending one more edge to a walk. -/
theorem IsWalkFrom.append_edge {es : List Edge} {s v : Int} {w : List Edge}
    (hw : IsWalkFrom es s v w) {e : Edge} (he : e ∈ es) (hsrc : e.src = v) :
    IsWalkFrom es s e.dst (w ++ [e]) := by
  induction w generalizing s with
  | nil =>
    have hs : s = v := hw
    subst hs
    exact ⟨he, hsrc, rfl⟩
  | cons e' rest ih =>
    obtain ⟨he', hsrc', hrest⟩ := hw
    exact ⟨he', hsrc', ih hrest⟩

theorem walkCost_append (w : List Edge) (e : Edge) :
    walkCost (w ++ [e]) = walkCost w + e.cost := by
  simp [walkCost]

theorem walkCost_nonneg {es : List Edge} (hc : ∀ e ∈ es, 0 ≤ e.cost) :
    ∀ {s t : Int} {w : List Edge}, IsWalkFrom es s t w → 0 ≤ walkCost w := by
  intro s t w
  induction w generalizing s with
  | nil => intro _; simp [walkCost]
  | cons e rest ih =>
    intro hw
    obtain ⟨he, _, hrest⟩ := hw
    have h1 : 0 ≤ e.cost := hc e he
    have h2 : 0 ≤ walkCost rest := ih hrest
    simp only [walkCost, List.map_cons, List.sum_cons]
    have : walkCost rest = (rest.map Edge.cost).sum := rfl
    rw [← this]
    linarith

/-! ## The search-loop invariant -/

theorem gridDen_pos (es : List Edge) : 0 < gridDen es := by
  unfold gridDen
  refine List.prod_pos ?_
  intro a ha
  obtain ⟨e, _, hde⟩ := List.mem_map.mp ha
  rw [← hde]
  exact e.cost.den_pos

/-- Every nonnegative edge cost is a grid point. -/
theorem costGrid {es : List Edge} (hc : ∀ e ∈ es, 0 ≤ e.cost) {e : Edge} (he : e ∈ es) :
    ∃ m : ℕ, e.cost = (m : ℚ) / (gridDen es : ℚ) := by
  have hdvd : e.cost.den ∣ gridDen es := List.dvd_prod (List.mem_map_of_mem _ he)
  obtain ⟨k, hk⟩ := hdvd
  refine ⟨e.cost.num.toNat * k, ?_⟩
  have hnum : (0 : ℤ) ≤ e.cost.num := Rat.num_nonneg.mpr (hc e he)
  have hL : (gridDen es : ℚ) ≠ 0 := by
    exact_mod_cast (gridDen_pos es).ne'
  have hden : ((e.cost.den : ℚ)) ≠ 0 := by
    exact_mod_cast e.cost.den_pos.ne'
  have hk0 : k ≠ 0 := by
    intro h0
    rw [h0, mul_zero] at hk
    exact (gridDen_pos es).ne' hk
  have hkq : ((k : ℚ)) ≠ 0 := by exact_mod_cast hk0
  rw [eq_div_iff hL]
  have h1 : ((e.cost.num.toNat : ℤ)) = e.cost.num := Int.toNat_of_nonneg hnum
  have h2 : e.cost * (e.cost.den : ℚ) = (e.cost.num : ℚ) := by
    have h3 := Rat.num_div_den e.cost
    rw [div_eq_iff hden] at h3
    exact h3.symm
  push_cast [hk, h1]
  rw [← mul_assoc, h2]
  congr 1
  exact_mod_cast h1.symm

/-- The value of a successful heuristic call. -/
theorem hcall_ok_val {nodes : List Int} {hf : Int → Int → ℚ} {a b : Int} {q : ℚ}
    (h : hcall nodes hf a b = .ok q) : q = hf a b := by
  unfold hcall at h
  by_cases hb : b ∈ nodes
  · rw [if_pos hb] at h
    by_cases ha : a ∈ nodes
    · rw [if_pos ha] at h
      cases h
      rfl
    · rw [if_neg ha] at h
      cases h
  · rw [if_neg hb] at h
    cases h

theorem hcall_ok_of_mem {nodes : List Int} {hf : Int → Int → ℚ} {a b : Int}
    (ha : a ∈ nodes) (hb : b ∈ nodes) : hcall nodes hf a b = .ok (hf a b) := by
  unfold hcall
  rw [if_pos hb, if_pos ha]

theorem RFacts.rfl_self (st : AState) : RFacts st st :=
  ⟨fun _ => le_refl _, fun u hu => ⟨hu, rfl⟩, fun v hv => Or.inl hv⟩

theorem RFacts.trans {st1 st2 st3 : AState} (h12 : RFacts st1 st2) (h23 : RFacts st2 st3) :
    RFacts st1 st3 := by
  refine ⟨fun v => le_trans (h23.g_mono v) (h12.g_mono v), ?_, ?_⟩
  · intro u hu
    obtain ⟨hu2, he2⟩ := h23.closed_sub u hu
    obtain ⟨hu1, he1⟩ := h12.closed_sub u hu2
    exact ⟨hu1, he2.trans he1⟩
  · intro v hv
    rcases h23.open_new v hv with h2 | h2
    · rcases h12.open_new v h2 with h1 | h1
      · exact Or.inl h1
      · exact Or.inr (lt_of_le_of_lt (h23.g_mono v) h1)
    · exact Or.inr (lt_of_lt_of_le h2 (h12.g_mono v))

/-- Along predecessor links the g-cost never increases. -/
theorem Core.chain_g_mono {hf : Int → Int → ℚ} {es : List Edge} {start goal : Int}
    {st : AState} (hco : Core hf es start goal st)
    (hc : ∀ e ∈ es, 0 ≤ e.cost) {a b : Int}
    (h : Relation.ReflTransGen (fun x y => st.prev x = some y) a b) :
    st.g b ≤ st.g a := by
  induction h with
  | refl => exact le_refl _
  | tail hab hbc ih =>
    rename_i b' c'
    obtain ⟨_, _, _, hbound⟩ := hco.prev_edge b' c' hbc
    refine le_trans (le_trans ?_ hbound) ih
    exact le_add_of_nonneg_right (cminW_nonneg hc _ _)

/-- Decomposition of reachability along predecessor links after a
single pointer update. -/
theorem rtg_update {p : Int → Option Int} {tid cur : Int} {a b : Int}
    (h : Relation.ReflTransGen
      (fun x y => (if x = tid then some cur else p x) = some y) a b) :
    Relation.ReflTransGen (fun x y => p x = some y) a b ∨
      (Relation.ReflTransGen (fun x y => p x = some y) a tid ∧
        Relation.ReflTransGen (fun x y => p x = some y) cur b) := by
  induction h with
  | refl => exact Or.inl Relation.ReflTransGen.refl
  | tail hac hcb ih =>
    rename_i c b'
    by_cases hct : c = tid
    · subst hct
      rw [if_pos rfl] at hcb
      cases hcb
      rcases ih with h1 | h1
      · exact Or.inr ⟨h1, Relation.ReflTransGen.refl⟩
      · exact Or.inr ⟨h1.1, Relation.ReflTransGen.refl⟩
    · rw [if_neg hct] at hcb
      rcases ih with h1 | h1
      · exact Or.inl (h1.tail hcb)
      · exact Or.inr ⟨h1.1, h1.2.tail hcb⟩

theorem updState_g (st : AState) (cur tid : Int) (tent : WithTop ℚ) (hv : ℚ)
    (op cl : Finset Int) (v : Int) :
    (updState st cur tid tent hv op cl).g v = if v = tid then tent else st.g v := rfl

theorem updState_f (st : AState) (cur tid : Int) (tent : WithTop ℚ) (hv : ℚ)
    (op cl : Finset Int) (v : Int) :
    (updState st cur tid tent hv op cl).f v =
      if v = tid then tent + (hv : WithTop ℚ) else st.f v := rfl

theorem updState_prev (st : AState) (cur tid : Int) (tent : WithTop ℚ) (hv : ℚ)
    (op cl : Finset Int) (v : Int) :
    (updState st cur tid tent hv op cl).prev v =
      if v = tid then some cur else st.prev v := rfl

theorem updState_openS (st : AState) (cur tid : Int) (tent : WithTop ℚ) (hv : ℚ)
    (op cl : Finset Int) : (updState st cur tid tent hv op cl).openS = op := rfl

theorem updState_closedS (st : AState) (cur tid : Int) (tent : WithTop ℚ) (hv : ℚ)
    (op cl : Finset Int) : (updState st cur tid tent hv op cl).closedS = cl := rfl

/-- Preservation of the mid-expansion invariant by one updating
relaxation branch: `tid` receives the strictly improved tentative cost
`g cur + c` along an actual edge of `cur`, moves into the open set, and
leaves the closed set.  The open/closed sets after the update are given
only through membership conditions, so the lemma covers the reopen,
unseen and improve branches of lines 104-121 at once. -/
theorem update_preserves {hf : Int → Int → ℚ} {es : List Edge}
    {start goal cur : Int} {st : AState}
    (hc : ∀ e ∈ es, 0 ≤ e.cost)
    (hmid : InvMid hf es start goal cur st)
    {tid : Int} {c : ℚ} (hadj : (tid, c) ∈ adj es cur)
    (himp : st.g cur + (c : WithTop ℚ) < st.g tid)
    {op cl : Finset Int}
    (hop : ∀ v, v ∈ op ↔ v = tid ∨ v ∈ st.openS)
    (hcl : ∀ v, v ∈ cl ↔ v ∈ st.closedS ∧ v ≠ tid) :
    InvMid hf es start goal cur
        (updState st cur tid (st.g cur + (c : WithTop ℚ)) (hf tid goal) op cl) ∧
      RFacts st (updState st cur tid (st.g cur + (c : WithTop ℚ)) (hf tid goal) op cl) := by
  obtain ⟨e0, he0, hsrc0, hdst0, hcost0⟩ := adj_mem.mp hadj
  have hdst0 : e0.dst = tid := hdst0
  have hcost0 : e0.cost = c := hcost0
  have hcnn : (0 : ℚ) ≤ c := hcost0 ▸ hc e0 he0
  have hcmin : cminW es cur tid ≤ (c : WithTop ℚ) := cminW_le hadj
  have hcnn' : (0 : WithTop ℚ) ≤ (c : WithTop ℚ) := by exact_mod_cast hcnn
  have htop : st.g cur + (c : WithTop ℚ) ≠ ⊤ :=
    WithTop.add_ne_top.mpr ⟨hmid.cur_finite, WithTop.coe_ne_top⟩
  have hself : st.g cur ≤ st.g cur + (c : WithTop ℚ) := le_add_of_nonneg_right hcnn'
  have hne_cur : tid ≠ cur := by
    intro h
    subst h
    exact absurd himp (not_lt.mpr hself)
  have hne_start : tid ≠ start := by
    intro h
    subst h
    have h0 : (0 : WithTop ℚ) ≤ st.g cur + (c : WithTop ℚ) :=
      add_nonneg (hmid.g_nonneg cur) hcnn'
    rw [hmid.g_start] at himp
    exact absurd himp (not_lt.mpr h0)
  have hnreach : ¬ Relation.ReflTransGen (fun a b => st.prev a = some b) cur tid := by
    intro h
    have hmono := hmid.toCore.chain_g_mono hc h
    exact absurd (lt_of_lt_of_le himp (le_trans hmono hself)) (lt_irrefl _)
  have hfacts : RFacts st
      (updState st cur tid (st.g cur + (c : WithTop ℚ)) (hf tid goal) op cl) := by
    refine ⟨?_, ?_, ?_⟩
    · intro v
      rw [updState_g]
      by_cases hvt : v = tid
      · rw [if_pos hvt, hvt]
        exact le_of_lt himp
      · rw [if_neg hvt]
    · intro u hu
      rw [updState_closedS] at hu
      have hu2 := (hcl u).mp hu
      rw [updState_g, if_neg hu2.2]
      exact ⟨hu2.1, rfl⟩
    · intro v hv
      rw [updState_openS] at hv
      rcases (hop v).mp hv with hvt | hvo
      · refine Or.inr ?_
        rw [updState_g, if_pos hvt, hvt]
        exact himp
      · exact Or.inl hvo
  have hgmono := hfacts.g_mono
  have htid_uni : tid ∈ uni es start := by
    refine Finset.mem_insert_of_mem (List.mem_toFinset.mpr ?_)
    exact List.mem_map.mpr ⟨e0, he0, hdst0⟩
  refine ⟨⟨⟨?_, ?_, ?_, ?_, ?_, ?_, ?_, ?_, ?_, ?_, ?_, ?_, ?_, ?_, ?_, ?_⟩, ?_, ?_, ?_⟩, hfacts⟩
  · -- closed_finite
    intro v hv
    rw [updState_closedS] at hv
    have hv2 := (hcl v).mp hv
    rw [updState_g, if_neg hv2.2]
    exact hmid.closed_finite v hv2.1
  · -- finite_mem
    intro v hv
    rw [updState_g] at hv
    rw [updState_openS, updState_closedS]
    by_cases hvt : v = tid
    · exact Or.inl ((hop v).mpr (Or.inl hvt))
    · rw [if_neg hvt] at hv
      rcases hmid.finite_mem v hv with h | h
      · exact Or.inl ((hop v).mpr (Or.inr h))
      · exact Or.inr ((hcl v).mpr ⟨h, hvt⟩)
  · -- g_start
    rw [updState_g, if_neg fun h => hne_start h.symm]
    exact hmid.g_start
  · -- goal_not_closed
    rw [updState_closedS]
    intro h
    exact hmid.goal_not_closed ((hcl goal).mp h).1
  · -- open_finite
    intro v hv
    rw [updState_openS] at hv
    rw [updState_g]
    by_cases hvt : v = tid
    · rw [if_pos hvt]
      exact htop
    · rw [if_neg hvt]
      rcases (hop v).mp hv with h | h
      · exact absurd h hvt
      · exact hmid.open_finite v h
  · -- g_nonneg
    intro v
    rw [updState_g]
    by_cases hvt : v = tid
    · rw [if_pos hvt]
      exact add_nonneg (hmid.g_nonneg cur) hcnn'
    · rw [if_neg hvt]
      exact hmid.g_nonneg v
  · -- f_sync
    intro v hv
    rw [updState_g] at hv
    rw [updState_f, updState_g]
    by_cases hvt : v = tid
    · subst hvt
      rw [if_pos rfl, if_pos rfl]
    · rw [if_neg hvt] at hv
      rw [if_neg hvt, if_neg hvt]
      exact hmid.f_sync v hv
  · -- f_top
    intro v hv
    rw [updState_g] at hv
    rw [updState_f]
    by_cases hvt : v = tid
    · rw [if_pos hvt] at hv
      exact absurd hv htop
    · rw [if_neg hvt] at hv
      rw [if_neg hvt]
      exact hmid.f_top v hv
  · -- g_walk
    intro v hv
    rw [updState_g] at hv
    rw [updState_g]
    by_cases hvt : v = tid
    · subst hvt
      rw [if_pos rfl]
      obtain ⟨w, hw, hwc⟩ := hmid.g_walk cur hmid.cur_finite
      refine ⟨w ++ [e0], hdst0 ▸ hw.append_edge he0 hsrc0, ?_⟩
      rw [walkCost_append, hcost0]
      push_cast
      rw [hwc]
    · rw [if_neg hvt] at hv
      rw [if_neg hvt]
      exact hmid.g_walk v hv
  · -- prev_edge
    intro v u hvu
    rw [updState_prev] at hvu
    by_cases hvt : v = tid
    · subst hvt
      rw [if_pos rfl] at hvu
      cases hvu
      refine ⟨⟨e0, he0, hsrc0, hdst0⟩, ?_, ?_, ?_⟩
      · rw [updState_g, if_neg fun h => hne_cur h.symm]
        exact hmid.cur_finite
      · rw [updState_g, if_pos rfl]
        exact htop
      · rw [updState_g, updState_g, if_pos rfl, if_neg fun h => hne_cur h.symm]
        exact add_le_add_left hcmin _
    · rw [if_neg hvt] at hvu
      obtain ⟨hedge, hu, hv, hb⟩ := hmid.prev_edge v u hvu
      refine ⟨hedge, ?_, ?_, ?_⟩
      · rw [updState_g]
        by_cases hut : u = tid
        · rw [if_pos hut]
          exact htop
        · rw [if_neg hut]
          exact hu
      · rw [updState_g, if_neg hvt]
        exact hv
      · rw [updState_g, updState_g, if_neg hvt]
        refine le_trans (add_le_add_right ?_ _) hb
        exact hgmono u
  · -- prev_start
    rw [updState_prev, if_neg fun h => hne_start h.symm]
    exact hmid.prev_start
  · -- prev_none
    intro v hv hvs
    rw [updState_g] at hv
    rw [updState_prev]
    by_cases hvt : v = tid
    · rw [if_pos hvt]
      exact Option.some_ne_none cur
    · rw [if_neg hvt] at hv
      rw [if_neg hvt]
      exact hmid.prev_none v hv hvs
  · -- prev_acyclic
    intro v u hvu hrtg
    have hvu2 : (if v = tid then some cur else st.prev v) = some u := hvu
    have hrtg2 : Relation.ReflTransGen
        (fun x y => (if x = tid then some cur else st.prev x) = some y) u v := hrtg
    by_cases hvt : v = tid
    · subst hvt
      rw [if_pos rfl] at hvu2
      cases hvu2
      rcases rtg_update hrtg2 with h1 | h1
      · exact hnreach h1
      · exact hnreach h1.1
    · rw [if_neg hvt] at hvu2
      rcases rtg_update hrtg2 with h1 | h1
      · exact hmid.prev_acyclic v u hvu2 h1
      · exact hnreach ((h1.2.tail hvu2).trans h1.1)
  · -- finite_uni
    intro v hv
    rw [updState_g] at hv
    by_cases hvt : v = tid
    · rw [hvt]
      exact htid_uni
    · rw [if_neg hvt] at hv
      exact hmid.finite_uni v hv
  · -- open_uni
    intro v hv
    rw [updState_openS] at hv
    rcases (hop v).mp hv with hvt | hvo
    · rw [hvt]
      exact htid_uni
    · exact hmid.open_uni hvo
  · -- grid
    intro v
    rw [updState_g]
    by_cases hvt : v = tid
    · rw [if_pos hvt]
      rcases hmid.grid cur with hk | ⟨k, hk⟩
      · exact absurd hk hmid.cur_finite
      obtain ⟨m, hm⟩ := costGrid hc he0
      rw [hcost0] at hm
      refine Or.inr ⟨k + m, ?_⟩
      rw [hk, hm, ← WithTop.coe_add]
      congr 1
      push_cast
      rw [div_add_div_same]
    · rw [if_neg hvt]
      exact hmid.grid v
  · -- closed_other
    intro u hu hune p hp
    rw [updState_closedS] at hu
    have hu2 := (hcl u).mp hu
    have hgu : (updState st cur tid (st.g cur + (c : WithTop ℚ)) (hf tid goal) op cl).g u
        = st.g u := by
      rw [updState_g, if_neg hu2.2]
    rw [hgu]
    exact le_trans (hgmono p.1) (hmid.closed_other u hu2.1 hune p hp)
  · -- cur_closed
    rw [updState_closedS]
    exact (hcl cur).mpr ⟨hmid.cur_closed, fun h => hne_cur h.symm⟩
  · -- cur_finite
    rw [updState_g, if_neg fun h => hne_cur h.symm]
    exact hmid.cur_finite

/-- Relaxing one edge of `cur` preserves the mid-expansion invariant,
produces the bookkeeping facts, and leaves the target's g-cost bounded
by the tentative cost through `cur`. -/
theorem relaxEdge_ok {nodes : List Int} {hf : Int → Int → ℚ} {es : List Edge}
    {start goal cur : Int} {st st' : AState} {e : Int × ℚ}
    (hc : ∀ e ∈ es, 0 ≤ e.cost)
    (he : e ∈ adj es cur)
    (hmid : InvMid hf es start goal cur st)
    (hok : relaxEdge nodes hf goal cur st e = .ok st') :
    InvMid hf es start goal cur st' ∧ RFacts st st' ∧
      st'.g e.1 ≤ st.g cur + (e.2 : WithTop ℚ) := by
  have hadj : ((e.1, e.2) : Int × ℚ) ∈ adj es cur := by
    rw [Prod.mk.eta]
    exact he
  have htent_ne : st.g cur + (e.2 : WithTop ℚ) ≠ ⊤ :=
    WithTop.add_ne_top.mpr ⟨hmid.cur_finite, WithTop.coe_ne_top⟩
  by_cases hC1 : e.1 ∈ st.closedS ∧ st.g cur + (e.2 : WithTop ℚ) < st.g e.1
  · -- reopen-on-improvement branch (lines 104-106)
    simp only [relaxEdge, if_pos hC1] at hok
    rw [if_neg (by simp)] at hok
    rw [if_neg (not_le.mpr hC1.2)] at hok
    cases hhc : hcall nodes hf e.1 goal with
    | error er =>
      rw [hhc] at hok
      cases hok
    | ok hv =>
      rw [hhc] at hok
      injection hok with hok2
      have hhv : hv = hf e.1 goal := hcall_ok_val hhc
      subst hhv
      subst hok2
      have hup := update_preserves hc hmid hadj hC1.2
        (fun v => Finset.mem_insert)
        (fun v => (Finset.mem_erase).trans and_comm)
      refine ⟨hup.1, hup.2, ?_⟩
      have hval : (updState st cur e.1 (st.g cur + (e.2 : WithTop ℚ)) (hf e.1 goal)
          (insert e.1 st.openS) (st.closedS.erase e.1)).g e.1
          = st.g cur + (e.2 : WithTop ℚ) := by
        rw [updState_g, if_pos rfl]
      exact le_of_eq hval
  · simp only [relaxEdge, if_neg hC1] at hok
    by_cases hU : e.1 ∉ st.openS ∧ e.1 ∉ st.closedS
    · -- unseen branch (lines 108-110 and the update tail)
      rw [if_pos hU] at hok
      cases hhc : hcall nodes hf e.1 goal with
      | error er =>
        rw [hhc] at hok
        cases hok
      | ok hv =>
        rw [hhc] at hok
        injection hok with hok2
        have hhv : hv = hf e.1 goal := hcall_ok_val hhc
        subst hhv
        subst hok2
        have hgt : st.g e.1 = ⊤ := by
          by_contra hne
          rcases hmid.finite_mem e.1 hne with h | h
          · exact hU.1 h
          · exact hU.2 h
        have himp : st.g cur + (e.2 : WithTop ℚ) < st.g e.1 := by
          rw [hgt]
          exact WithTop.lt_top_iff_ne_top.mpr htent_ne
        have hup := update_preserves hc hmid hadj himp
          (fun v => Finset.mem_insert)
          (fun v => ⟨fun h => ⟨h, fun hv2 => hU.2 (hv2 ▸ h)⟩, fun h => h.1⟩)
        refine ⟨hup.1, hup.2, ?_⟩
        have hval : (updState st cur e.1 (st.g cur + (e.2 : WithTop ℚ)) (hf e.1 goal)
            (insert e.1 st.openS) st.closedS).g e.1
            = st.g cur + (e.2 : WithTop ℚ) := by
          rw [updState_g, if_pos rfl]
        exact le_of_eq hval
    · rw [if_neg hU] at hok
      by_cases hle : st.g e.1 ≤ st.g cur + (e.2 : WithTop ℚ)
      · -- `tentative_g >= g_cost[to_id]: continue` (lines 112-113)
        rw [if_pos hle] at hok
        injection hok with hok2
        subst hok2
        exact ⟨hmid, RFacts.rfl_self st, hle⟩
      · -- strict improvement of a node already seen (update tail)
        rw [if_neg hle] at hok
        cases hhc : hcall nodes hf e.1 goal with
        | error er =>
          rw [hhc] at hok
          cases hok
        | ok hv =>
          rw [hhc] at hok
          injection hok with hok2
          have hhv : hv = hf e.1 goal := hcall_ok_val hhc
          subst hhv
          subst hok2
          have himp : st.g cur + (e.2 : WithTop ℚ) < st.g e.1 := not_le.mp hle
          have hnc : e.1 ∉ st.closedS := fun h => hC1 ⟨h, himp⟩
          have ho : e.1 ∈ st.openS := by
            rcases not_and_or.mp hU with h | h
            · exact not_not.mp h
            · exact absurd (not_not.mp h) hnc
          have hup := update_preserves hc hmid hadj himp
            (fun v => ⟨fun h => Or.inr h, fun h => h.elim (fun hv2 => hv2 ▸ ho) id⟩)
            (fun v => ⟨fun h => ⟨h, fun hv2 => hnc (hv2 ▸ h)⟩, fun h => h.1⟩)
          refine ⟨hup.1, hup.2, ?_⟩
          have hval : (updState st cur e.1 (st.g cur + (e.2 : WithTop ℚ)) (hf e.1 goal)
              st.openS st.closedS).g e.1
              = st.g cur + (e.2 : WithTop ℚ) := by
            rw [updState_g, if_pos rfl]
          exact le_of_eq hval

/-- Relaxing a whole edge list of `cur` preserves the invariant and
bounds the g-cost of every processed target. -/
theorem relaxList_ok {nodes : List Int} {hf : Int → Int → ℚ} {es : List Edge}
    {start goal cur : Int} (hc : ∀ e ∈ es, 0 ≤ e.cost) :
    ∀ (l : List (Int × ℚ)) (st st' : AState),
      (∀ p ∈ l, p ∈ adj es cur) →
      relaxList nodes hf goal cur st l = .ok st' →
      InvMid hf es start goal cur st →
      InvMid hf es start goal cur st' ∧ RFacts st st' ∧
        ∀ p ∈ l, st'.g p.1 ≤ st'.g cur + (p.2 : WithTop ℚ) := by
  intro l
  induction l with
  | nil =>
    intro st st' hl hok hmid
    injection hok with hok2
    subst hok2
    exact ⟨hmid, RFacts.rfl_self st, fun p hp => absurd hp (List.not_mem_nil p)⟩
  | cons p rest ih =>
    intro st st' hl hok hmid
    cases hre : relaxEdge nodes hf goal cur st p with
    | error er =>
      rw [relaxList, hre] at hok
      cases hok
    | ok st1 =>
      rw [relaxList, hre] at hok
      have h1 := relaxEdge_ok hc (hl p (List.mem_cons_self p rest)) hmid hre
      have h2 := ih st1 st' (fun q hq => hl q (List.mem_cons_of_mem _ hq)) hok h1.1
      refine ⟨h2.1, h1.2.1.trans h2.2.1, ?_⟩
      intro q hq
      have hcur1 : st1.g cur = st.g cur := (h1.2.1.closed_sub cur h1.1.cur_closed).2
      have hcur2 : st'.g cur = st1.g cur := (h2.2.1.closed_sub cur h2.1.cur_closed).2
      rcases List.mem_cons.mp hq with h | h
      · have hq1 : st1.g q.1 ≤ st.g cur + (q.2 : WithTop ℚ) := by
          rw [h]
          exact h1.2.2
        refine le_trans (le_trans (h2.2.1.g_mono q.1) hq1) (le_of_eq ?_)
        rw [hcur2, hcur1]
      · exact h2.2.2 q h

/-- Moving the selected non-goal node from the open to the closed set
(lines 99-101) yields the mid-expansion invariant. -/
theorem close_cur_mid {hf : Int → Int → ℚ} {es : List Edge} {start goal : Int}
    {st : AState} (hinv : Inv hf es start goal st) (hne : st.openS.Nonempty)
    (hg : ¬ select st.openS st.f hne = goal) :
    InvMid hf es start goal (select st.openS st.f hne)
      { st with openS := st.openS.erase (select st.openS st.f hne),
                closedS := insert (select st.openS st.f hne) st.closedS } := by
  have hcuro : select st.openS st.f hne ∈ st.openS := select_mem _ _ _
  have hcurf : st.g (select st.openS st.f hne) ≠ ⊤ := hinv.open_finite _ hcuro
  refine ⟨⟨?_, ?_, hinv.g_start, ?_, ?_, hinv.g_nonneg, hinv.f_sync, hinv.f_top,
    hinv.g_walk, hinv.prev_edge, hinv.prev_start, hinv.prev_none, hinv.prev_acyclic,
    hinv.finite_uni, ?_, hinv.grid⟩, ?_, ?_, ?_⟩
  · intro v hv
    rcases Finset.mem_insert.mp hv with h | h
    · rw [h]
      exact hcurf
    · exact hinv.closed_finite v h
  · intro v hv
    rcases hinv.finite_mem v hv with h | h
    · by_cases hvc : v = select st.openS st.f hne
      · refine Or.inr ?_
        rw [hvc]
        exact Finset.mem_insert_self _ _
      · exact Or.inl (Finset.mem_erase.mpr ⟨hvc, h⟩)
    · exact Or.inr (Finset.mem_insert_of_mem h)
  · intro h
    rcases Finset.mem_insert.mp h with h2 | h2
    · exact hg h2.symm
    · exact hinv.goal_not_closed h2
  · intro v hv
    exact hinv.open_finite v (Finset.mem_of_mem_erase hv)
  · intro v hv
    exact hinv.open_uni (Finset.mem_of_mem_erase hv)
  · intro u hu hune p hp
    rcases Finset.mem_insert.mp hu with h | h
    · exact absurd h hune
    · exact hinv.closed_relax u h p hp
  · exact Finset.mem_insert_self _ _
  · exact hcurf

/-- One expanding loop iteration preserves the full invariant.  The
iteration also never increases any g-cost, and every node that remains
in the open set either was already there (and is not the expanded node)
or had its g-cost strictly improved — the facts the termination measure
needs. -/
theorem stepF_cont_ok {nodes : List Int} {hf : Int → Int → ℚ} {es : List Edge}
    {start goal : Int} {n : ℕ} {st st2 : AState}
    (hc : ∀ e ∈ es, 0 ≤ e.cost)
    (hinv : Inv hf es start goal st)
    (hcont : stepF nodes hf es goal n st = .cont st2) :
    Inv hf es start goal st2 ∧
      (∀ v, st2.g v ≤ st.g v) ∧
      ∃ hne : st.openS.Nonempty,
        ∀ v ∈ st2.openS,
          v ∈ st.openS.erase (select st.openS st.f hne) ∨ st2.g v < st.g v := by
  by_cases hne : st.openS.Nonempty
  · by_cases hg : select st.openS st.f hne = goal
    · rw [stepF_goal hne hg] at hcont
      cases hreb : rebuildF st.prev n [goal] with
      | none =>
        rw [hreb] at hcont
        cases hcont
      | some p =>
        rw [hreb] at hcont
        cases hcont
    · rw [stepF_expand hne hg] at hcont
      cases hrel : relaxList nodes hf goal (select st.openS st.f hne)
          { st with openS := st.openS.erase (select st.openS st.f hne),
                    closedS := insert (select st.openS st.f hne) st.closedS }
          (adj es (select st.openS st.f hne)) with
      | error er =>
        rw [hrel] at hcont
        cases hcont
      | ok st2x =>
        rw [hrel] at hcont
        injection hcont with h2
        subst h2
        have hmid := close_cur_mid hinv hne hg
        have h3 := relaxList_ok hc (adj es (select st.openS st.f hne)) _ st2x
          (fun p hp => hp) hrel hmid
        refine ⟨⟨h3.1.toCore, ?_⟩, ?_, ⟨hne, ?_⟩⟩
        · intro u hu p hp
          by_cases huc : u = select st.openS st.f hne
          · rw [huc]
            rw [huc] at hp
            exact h3.2.2 p hp
          · exact h3.1.closed_other u hu huc p hp
        · exact fun v => h3.2.1.g_mono v
        · exact fun v hv => h3.2.1.open_new v hv
  · rw [stepF_empty hne] at hcont
    cases hcont

/-- The initial state (lines 78-86) satisfies the loop invariant. -/
theorem astarInit_inv {nodes : List Int} {hf : Int → Int → ℚ} {es : List Edge}
    {start goal : Int} {st0 : AState}
    (h : astarInit nodes hf start goal = .ok st0) :
    Inv hf es start goal st0 := by
  unfold astarInit at h
  cases hhc : hcall nodes hf start goal with
  | error er =>
    rw [hhc] at h
    cases h
  | ok hv =>
    rw [hhc] at h
    injection h with h2
    have hhv : hv = hf start goal := hcall_ok_val hhc
    subst hhv
    subst h2
    refine ⟨⟨?_, ?_, ?_, ?_, ?_, ?_, ?_, ?_, ?_, ?_, ?_, ?_, ?_, ?_, ?_, ?_⟩, ?_⟩
    · intro v hv2
      simp at hv2
    · intro v hv2
      by_cases hvs : v = start
      · exact Or.inl (by rw [hvs]; simp)
      · exact absurd (if_neg hvs) hv2
    · exact if_pos rfl
    · simp
    · intro v hv2
      have hvs : v = start := by simpa using hv2
      show (if v = start then ((0 : ℚ) : WithTop ℚ) else ⊤) ≠ ⊤
      rw [if_pos hvs]
      exact WithTop.coe_ne_top
    · intro v
      show (0 : WithTop ℚ) ≤ if v = start then ((0 : ℚ) : WithTop ℚ) else ⊤
      by_cases hvs : v = start
      · rw [if_pos hvs]
        exact le_refl _
      · rw [if_neg hvs]
        exact le_top
    · intro v hv2
      have hvs : v = start := by
        by_contra hvs
        exact hv2 (if_neg hvs)
      show (if v = start then ((hf start goal : ℚ) : WithTop ℚ) else ⊤)
        = (if v = start then ((0 : ℚ) : WithTop ℚ) else ⊤) + ((hf v goal : ℚ) : WithTop ℚ)
      rw [if_pos hvs, if_pos hvs, hvs, ← WithTop.coe_add, zero_add]
    · intro v hv2
      have hv3 : (if v = start then ((0 : ℚ) : WithTop ℚ) else ⊤) = ⊤ := hv2
      have hvs : ¬ v = start := by
        intro hvs
        rw [if_pos hvs] at hv3
        exact WithTop.coe_ne_top hv3
      exact if_neg hvs
    · intro v hv2
      have hvs : v = start := by
        by_contra hvs
        exact hv2 (if_neg hvs)
      refine ⟨[], hvs.symm, ?_⟩
      show ((walkCost [] : ℚ) : WithTop ℚ) = if v = start then ((0 : ℚ) : WithTop ℚ) else ⊤
      rw [if_pos hvs]
      rfl
    · intro v u hvu
      cases hvu
    · rfl
    · intro v hv2 hvs h2
      refine hvs ?_
      by_contra hvs2
      exact hv2 (if_neg hvs2)
    · intro v u hvu
      cases hvu
    · intro v hv2
      have hvs : v = start := by
        by_contra hvs
        exact hv2 (if_neg hvs)
      rw [hvs]
      exact Finset.mem_insert_self _ _
    · intro v hv2
      have hvs : v = start := by simpa using hv2
      rw [hvs]
      exact Finset.mem_insert_self _ _
    · intro v
      by_cases hvs : v = start
      · refine Or.inr ⟨0, ?_⟩
        show (if v = start then ((0 : ℚ) : WithTop ℚ) else ⊤)
          = ((((0 : ℕ) : ℚ) / (gridDen es : ℚ) : ℚ) : WithTop ℚ)
        rw [if_pos hvs]
        norm_num
      · exact Or.inl (if_neg hvs)
    · intro u hu p hp
      simp at hu

/-- The path-reconstruction loop always terminates when the predecessor
map is acyclic and confined to a finite universe: fuel `|W|` suffices,
where `W` covers every id on the chain.  (`V` accumulates the already
visited ids; each of them can reach the current head `x`.) -/
theorem rebuildF_total {p : Int → Option Int} {U : Finset Int}
    (hacy : ∀ v u, p v = some u → ¬ Relation.ReflTransGen (fun a b => p a = some b) u v)
    (hU : ∀ v u, p v = some u → u ∈ U) {W : Finset Int} (hUW : U ⊆ W) :
    ∀ (k : ℕ) (x : Int) (acc : List Int) (V : Finset Int),
      x ∈ W → V ⊆ W → x ∉ V →
      (∀ y ∈ V, Relation.ReflTransGen (fun a b => p a = some b) y x) →
      W.card ≤ k + V.card →
      ∃ l, rebuildF p k (x :: acc) = some l := by
  intro k
  induction k with
  | zero =>
    intro x acc V hxW hVW hxV hreach hcard
    cases hpx : p x with
    | none => exact ⟨x :: acc, by rw [rebuildF, hpx]⟩
    | some u =>
      exfalso
      have hsub : V ⊂ W := by
        refine Finset.ssubset_iff_of_subset hVW |>.mpr ⟨x, hxW, hxV⟩
      have := Finset.card_lt_card hsub
      omega
  | succ k ih =>
    intro x acc V hxW hVW hxV hreach hcard
    cases hpx : p x with
    | none => exact ⟨x :: acc, by rw [rebuildF, hpx]⟩
    | some u =>
      have hrw : rebuildF p (k + 1) (x :: acc) = rebuildF p k (u :: x :: acc) := by
        rw [rebuildF, hpx]
      have huU : u ∈ U := hU x u hpx
      have hux : u ≠ x := by
        intro h
        subst h
        exact hacy u u hpx Relation.ReflTransGen.refl
      have huV : u ∉ V := by
        intro h
        exact hacy x u hpx (hreach u h)
      obtain ⟨l, hl⟩ := ih u (x :: acc) (insert x V) (hUW huU)
        (Finset.insert_subset hxW hVW)
        (by
          intro h
          rcases Finset.mem_insert.mp h with h2 | h2
          · exact hux h2
          · exact huV h2)
        (by
          intro y hy
          rcases Finset.mem_insert.mp hy with h2 | h2
          · rw [h2]
            exact Relation.ReflTransGen.single hpx
          · exact (hreach y h2).tail hpx)
        (by
          rw [Finset.card_insert_of_not_mem hxV]
          omega)
      exact ⟨l, hrw.trans hl⟩


/-! ## Termination of the search loop for nonnegative costs -/

theorem gN_coe (L : ℕ) (hL : 0 < L) (k : ℕ) :
    gN L ((((k : ℕ) : ℚ) / (L : ℚ) : ℚ) : WithTop ℚ) = k := by
  unfold gN
  rw [WithTop.untop'_coe]
  have hLq : (L : ℚ) ≠ 0 := by exact_mod_cast hL.ne'
  rw [div_mul_cancel₀ _ hLq]
  simp

theorem grid_le {L : ℕ} (hL : 0 < L) {k1 k2 : ℕ}
    (h : ((((k2 : ℕ) : ℚ) / (L : ℚ) : ℚ) : WithTop ℚ)
      ≤ ((((k1 : ℕ) : ℚ) / (L : ℚ) : ℚ) : WithTop ℚ)) : k2 ≤ k1 := by
  have hLq : (0 : ℚ) < L := by exact_mod_cast hL
  rw [WithTop.coe_le_coe, div_le_div_iff hLq hLq] at h
  have h2 := le_of_mul_le_mul_right h hLq
  exact_mod_cast h2

theorem grid_lt {L : ℕ} (hL : 0 < L) {k1 k2 : ℕ}
    (h : ((((k2 : ℕ) : ℚ) / (L : ℚ) : ℚ) : WithTop ℚ)
      < ((((k1 : ℕ) : ℚ) / (L : ℚ) : ℚ) : WithTop ℚ)) : k2 < k1 := by
  have hLq : (0 : ℚ) < L := by exact_mod_cast hL
  rw [WithTop.coe_lt_coe, div_lt_div_iff hLq hLq] at h
  have h2 := lt_of_mul_lt_mul_right h (le_of_lt hLq)
  exact_mod_cast h2

/-- Every expanding iteration strictly decreases the lexicographic
measure (infinite-count, scaled g-total, open-set size). -/
theorem stepF_measure_lt {nodes : List Int} {hf : Int → Int → ℚ} {es : List Edge}
    {start goal : Int} {n : ℕ} {st st2 : AState}
    (hc : ∀ e ∈ es, 0 ≤ e.cost)
    (hinv : Inv hf es start goal st)
    (hcont : stepF nodes hf es goal n st = .cont st2) :
    toLex (tcount es start st2, toLex (smN es start st2, st2.openS.card))
      < toLex (tcount es start st, toLex (smN es start st, st.openS.card)) := by
  obtain ⟨hinv2, hgm, hne, hopen⟩ := stepF_cont_ok hc hinv hcont
  have hL : 0 < gridDen es := gridDen_pos es
  have hsub : ((uni es start).filter fun v => st2.g v = ⊤)
      ⊆ ((uni es start).filter fun v => st.g v = ⊤) := by
    intro v hv
    have hv2 := Finset.mem_filter.mp hv
    refine Finset.mem_filter.mpr ⟨hv2.1, ?_⟩
    exact top_le_iff.mp (hv2.2 ▸ hgm v)
  have htle : tcount es start st2 ≤ tcount es start st := Finset.card_le_card hsub
  rw [Prod.Lex.lt_iff]
  by_cases hT : tcount es start st2 < tcount es start st
  · exact Or.inl hT
  have hTeq : tcount es start st2 = tcount es start st := le_antisymm htle (not_lt.mp hT)
  refine Or.inr ⟨hTeq, ?_⟩
  have hSeq : ((uni es start).filter fun v => st2.g v = ⊤)
      = ((uni es start).filter fun v => st.g v = ⊤) :=
    Finset.eq_of_subset_of_card_le hsub (le_of_eq hTeq.symm)
  have htopiff : ∀ v ∈ uni es start, (st2.g v = ⊤ ↔ st.g v = ⊤) := by
    intro v hv
    constructor
    · intro h
      exact top_le_iff.mp (h ▸ hgm v)
    · intro h
      have h2 : v ∈ (uni es start).filter fun w => st.g w = ⊤ :=
        Finset.mem_filter.mpr ⟨hv, h⟩
      rw [← hSeq] at h2
      exact (Finset.mem_filter.mp h2).2
  rw [Prod.Lex.lt_iff]
  by_cases hg : ∀ v, st2.g v = st.g v
  · refine Or.inr ⟨?_, ?_⟩
    · show smN es start st2 = smN es start st
      unfold smN
      exact Finset.sum_congr rfl fun v _ => by rw [hg v]
    · show st2.openS.card < st.openS.card
      have hosub : st2.openS ⊆ st.openS.erase (select st.openS st.f hne) := by
        intro v hv
        rcases hopen v hv with h | h
        · exact h
        · exact absurd h (by rw [hg v]; exact lt_irrefl _)
      refine lt_of_le_of_lt (Finset.card_le_card hosub) ?_
      refine lt_of_le_of_lt (le_of_eq (Finset.card_erase_of_mem (select_mem _ _ _))) ?_
      exact Nat.sub_lt (Finset.card_pos.mpr hne) one_pos
  · push_neg at hg
    obtain ⟨v0, hv0ne⟩ := hg
    have hv0 : st2.g v0 < st.g v0 := lt_of_le_of_ne (hgm v0) hv0ne
    have hv0fin2 : st2.g v0 ≠ ⊤ := ne_top_of_lt hv0
    have hv0uni : v0 ∈ uni es start := hinv2.finite_uni v0 hv0fin2
    have hv0fin1 : st.g v0 ≠ ⊤ := fun h => hv0fin2 ((htopiff v0 hv0uni).mpr h)
    refine Or.inl ?_
    show smN es start st2 < smN es start st
    unfold smN
    refine Finset.sum_lt_sum ?_ ⟨v0, hv0uni, ?_⟩
    · intro w hw
      by_cases hwt : st.g w = ⊤
      · rw [(htopiff w hw).mpr hwt, hwt]
      · have hw2t : st2.g w ≠ ⊤ := fun h => hwt ((htopiff w hw).mp h)
        rcases hinv.grid w with h1 | ⟨k1, hk1⟩
        · exact absurd h1 hwt
        rcases hinv2.grid w with h2 | ⟨k2, hk2⟩
        · exact absurd h2 hw2t
        rw [hk1, hk2, gN_coe _ hL, gN_coe _ hL]
        refine grid_le hL ?_
        rw [← hk1, ← hk2]
        exact hgm w
    · rcases hinv.grid v0 with h1 | ⟨k1, hk1⟩
      · exact absurd h1 hv0fin1
      rcases hinv2.grid v0 with h2 | ⟨k2, hk2⟩
      · exact absurd h2 hv0fin2
      rw [hk1, hk2, gN_coe _ hL, gN_coe _ hL]
      refine grid_lt hL ?_
      rw [← hk1, ← hk2]
      exact hv0

/-- With nonnegative edge costs, the search loop terminates from any
state satisfying the invariant: some fuel produces a result. -/
theorem loop_terminates {nodes : List Int} {hf : Int → Int → ℚ} {es : List Edge}
    {start goal : Int} (hc : ∀ e ∈ es, 0 ≤ e.cost) :
    ∀ st : AState, Inv hf es start goal st →
      ∃ n r, loop nodes hf es goal n st = some r := by
  suffices H : ∀ m : ℕ ×ₗ ℕ ×ₗ ℕ, ∀ st : AState,
      toLex (tcount es start st, toLex (smN es start st, st.openS.card)) = m →
      Inv hf es start goal st → ∃ n r, loop nodes hf es goal n st = some r by
    intro st hinv
    exact H _ st rfl hinv
  refine fun m => @WellFounded.induction _ _ wellFounded_lt
    (fun m => ∀ st : AState,
      toLex (tcount es start st, toLex (smN es start st, st.openS.card)) = m →
      Inv hf es start goal st → ∃ n r, loop nodes hf es goal n st = some r)
    m ?_
  intro x ih st hμ hinv
  by_cases hne : st.openS.Nonempty
  · by_cases hg : select st.openS st.f hne = goal
    · have hacy : ∀ v u, st.prev v = some u →
          ¬ Relation.ReflTransGen (fun a b => st.prev a = some b) u v := hinv.prev_acyclic
      have hU : ∀ v u, st.prev v = some u → u ∈ uni es start := by
        intro v u hvu
        exact hinv.finite_uni u (hinv.prev_edge v u hvu).2.1
      obtain ⟨l, hl⟩ := rebuildF_total hacy hU
        (Finset.subset_insert goal (uni es start))
        (insert goal (uni es start)).card goal [] ∅ (Finset.mem_insert_self _ _)
        (Finset.empty_subset _) (Finset.not_mem_empty _)
        (fun y hy => absurd hy (Finset.not_mem_empty y))
        (by simp)
      refine ⟨(insert goal (uni es start)).card + 1, .ok (l, st.g goal), ?_⟩
      rw [loop, stepF_goal hne hg, hl]
    · cases hrel : relaxList nodes hf goal (select st.openS st.f hne)
          { st with openS := st.openS.erase (select st.openS st.f hne),
                    closedS := insert (select st.openS st.f hne) st.closedS }
          (adj es (select st.openS st.f hne)) with
      | error er =>
        refine ⟨0 + 1, .error er, ?_⟩
        rw [loop, stepF_expand hne hg, hrel]
      | ok st2 =>
        have hcont : stepF nodes hf es goal 0 st = .cont st2 := by
          rw [stepF_expand hne hg, hrel]
        have hdec := stepF_measure_lt hc hinv hcont
        have hinv2 := (stepF_cont_ok hc hinv hcont).1
        obtain ⟨n, r, hrun⟩ := ih _ (hμ ▸ hdec) st2 rfl hinv2
        refine ⟨n + 1, r, ?_⟩
        have hcont2 : stepF nodes hf es goal n st = .cont st2 := by
          rw [stepF_expand hne hg, hrel]
        rw [loop, hcont2]
        exact hrun
  · refine ⟨0 + 1, .ok ([], ⊤), ?_⟩
    rw [loop, stepF_empty hne]


/-! ## Structure of reconstructed paths and of loop results -/

/-- What a successful `rebuildF` run returns: the input extended to the
left by predecessor links, forming a chain whose head has no
predecessor. -/
theorem rebuildF_spec {p : Int → Option Int} :
    ∀ (k : ℕ) (x : Int) (acc l : List Int),
      rebuildF p k (x :: acc) = some l →
      (∃ pre, l = pre ++ x :: acc) ∧
      (PrevChain p (x :: acc) → PrevChain p l) ∧
      ∃ h t, l = h :: t ∧ p h = none := by
  intro k
  induction k with
  | zero =>
    intro x acc l hl
    cases hpx : p x with
    | none =>
      rw [rebuildF, hpx] at hl
      injection hl with h2
      subst h2
      exact ⟨⟨[], rfl⟩, fun h => h, x, acc, rfl, hpx⟩
    | some u =>
      rw [rebuildF, hpx] at hl
      cases hl
  | succ k ih =>
    intro x acc l hl
    cases hpx : p x with
    | none =>
      rw [rebuildF, hpx] at hl
      injection hl with h2
      subst h2
      exact ⟨⟨[], rfl⟩, fun h => h, x, acc, rfl, hpx⟩
    | some u =>
      rw [rebuildF, hpx] at hl
      obtain ⟨⟨pre, hpre⟩, hch, h, t, hht, hpn⟩ := ih u (x :: acc) l hl
      refine ⟨⟨pre ++ [u], by rw [hpre]; simp⟩, ?_, h, t, hht, hpn⟩
      intro hchain
      exact hch ⟨hpx, hchain⟩

/-- The head of a nonempty predecessor chain has finite g-cost as soon
as its last element does. -/
theorem prevChain_head_finite {hf : Int → Int → ℚ} {es : List Edge} {start goal : Int}
    {st : AState} (hco : Core hf es start goal st) :
    ∀ (rest : List Int) (a : Int), PrevChain st.prev (a :: rest) →
      st.g ((a :: rest).getLast (List.cons_ne_nil a rest)) ≠ ⊤ → st.g a ≠ ⊤ := by
  intro rest
  induction rest with
  | nil =>
    intro a _ hg
    simpa using hg
  | cons b rest2 _ =>
    intro a hch _
    exact (hco.prev_edge b a hch.1).2.1

/-- Adjacent elements of a predecessor chain are joined by edges of the
graph. -/
theorem prevChain_chain {hf : Int → Int → ℚ} {es : List Edge} {start goal : Int}
    {st : AState} (hco : Core hf es start goal st) :
    ∀ (l : List Int), PrevChain st.prev l →
      List.Chain' (fun a b => ∃ e ∈ es, e.src = a ∧ e.dst = b) l := by
  intro l
  induction l with
  | nil => exact fun _ => List.chain'_nil
  | cons a rest ih =>
    intro hch
    cases rest with
    | nil => simp
    | cons b rest2 =>
      rw [List.chain'_cons]
      exact ⟨(hco.prev_edge b a hch.1).1, ih hch.2⟩

/-- Telescoping the per-link lower bounds: the recomputed cost of a
predecessor chain is at most the g-cost difference of its endpoints. -/
theorem prevChain_telescope {hf : Int → Int → ℚ} {es : List Edge} {start goal : Int}
    {st : AState} (hco : Core hf es start goal st) :
    ∀ (rest : List Int) (a : Int), PrevChain st.prev (a :: rest) →
      st.g a + pathCostMin es (a :: rest)
        ≤ st.g ((a :: rest).getLast (List.cons_ne_nil a rest)) := by
  intro rest
  induction rest with
  | nil =>
    intro a _
    simp [pathCostMin]
  | cons b rest2 ih =>
    intro a hch
    have hb := (hco.prev_edge b a hch.1).2.2.2
    have hlast : ((a :: b :: rest2).getLast (List.cons_ne_nil _ _))
        = ((b :: rest2).getLast (List.cons_ne_nil _ _)) := by
      simp [List.getLast_cons]
    rw [hlast]
    have hstep : st.g a + pathCostMin es (a :: b :: rest2)
        = (st.g a + cminW es a b) + pathCostMin es (b :: rest2) := by
      rw [pathCostMin, ← add_assoc]
    rw [hstep]
    exact le_trans (add_le_add_right hb _) (ih b hch.2)

/-- A failed single relaxation can only come from the heuristic lookup
(line 121 calling lines 68-71). -/
theorem relaxEdge_error {nodes : List Int} {hf : Int → Int → ℚ} {goal cur : Int}
    {st : AState} {e : Int × ℚ} {er : PyErr}
    (h : relaxEdge nodes hf goal cur st e = .error er) :
    hcall nodes hf e.1 goal = .error er := by
  by_cases hC1 : e.1 ∈ st.closedS ∧ st.g cur + (e.2 : WithTop ℚ) < st.g e.1
  · simp only [relaxEdge, if_pos hC1] at h
    rw [if_neg (by simp)] at h
    rw [if_neg (not_le.mpr hC1.2)] at h
    cases hhc : hcall nodes hf e.1 goal with
    | error er2 =>
      rw [hhc] at h
      injection h with h2
      exact congrArg Except.error h2
    | ok hv =>
      rw [hhc] at h
      cases h
  · simp only [relaxEdge, if_neg hC1] at h
    by_cases hU : e.1 ∉ st.openS ∧ e.1 ∉ st.closedS
    · rw [if_pos hU] at h
      cases hhc : hcall nodes hf e.1 goal with
      | error er2 =>
        rw [hhc] at h
        injection h with h2
        exact congrArg Except.error h2
      | ok hv =>
        rw [hhc] at h
        cases h
    · rw [if_neg hU] at h
      by_cases hle : st.g e.1 ≤ st.g cur + (e.2 : WithTop ℚ)
      · rw [if_pos hle] at h
        cases h
      · rw [if_neg hle] at h
        cases hhc : hcall nodes hf e.1 goal with
        | error er2 =>
          rw [hhc] at h
          injection h with h2
          exact congrArg Except.error h2
        | ok hv =>
          rw [hhc] at h
          cases h

/-- A failed relaxation sweep blames some edge of the processed list. -/
theorem relaxList_error {nodes : List Int} {hf : Int → Int → ℚ} {goal cur : Int} :
    ∀ (l : List (Int × ℚ)) (st : AState) (er : PyErr),
      relaxList nodes hf goal cur st l = .error er →
      ∃ p ∈ l, hcall nodes hf p.1 goal = .error er := by
  intro l
  induction l with
  | nil =>
    intro st er h
    cases h
  | cons p rest ih =>
    intro st er h
    cases hre : relaxEdge nodes hf goal cur st p with
    | error er2 =>
      rw [relaxList, hre] at h
      injection h with h2
      subst h2
      exact ⟨p, List.mem_cons_self p rest, relaxEdge_error hre⟩
    | ok st1 =>
      rw [relaxList, hre] at h
      obtain ⟨q, hq, hq2⟩ := ih st1 er h
      exact ⟨q, List.mem_cons_of_mem _ hq, hq2⟩

/-- Every result the loop can produce from an invariant state: a
normal "no path" exit with empty open set, a goal exit built by path
reconstruction from a final invariant state, or a heuristic `KeyError`
on some edge target. -/
theorem loop_run {nodes : List Int} {hf : Int → Int → ℚ} {es : List Edge}
    {start goal : Int} (hc : ∀ e ∈ es, 0 ≤ e.cost) :
    ∀ (n : ℕ) (st : AState) (r : Result),
      Inv hf es start goal st →
      loop nodes hf es goal n st = some r →
      (∃ st', Inv hf es start goal st' ∧ st'.openS = ∅ ∧ r = .ok ([], ⊤)) ∨
      (∃ (st' : AState) (hne : st'.openS.Nonempty), Inv hf es start goal st' ∧
        select st'.openS st'.f hne = goal ∧
        ∃ l n2, rebuildF st'.prev n2 [goal] = some l ∧ r = .ok (l, st'.g goal)) ∨
      (∃ er p cur2, p ∈ adj es cur2 ∧ hcall nodes hf p.1 goal = .error er ∧
        r = .error er) := by
  intro n
  induction n with
  | zero =>
    intro st r hinv h
    rw [loop] at h
    cases h
  | succ n ih =>
    intro st r hinv h
    rw [loop] at h
    by_cases hne : st.openS.Nonempty
    · by_cases hg : select st.openS st.f hne = goal
      · rw [stepF_goal hne hg] at h
        cases hreb : rebuildF st.prev n [goal] with
        | none =>
          rw [hreb] at h
          cases h
        | some l =>
          rw [hreb] at h
          injection h with h2
          exact Or.inr (Or.inl ⟨st, hne, hinv, hg, l, n, hreb, h2.symm⟩)
      · rw [stepF_expand hne hg] at h
        cases hrel : relaxList nodes hf goal (select st.openS st.f hne)
            { st with openS := st.openS.erase (select st.openS st.f hne),
                      closedS := insert (select st.openS st.f hne) st.closedS }
            (adj es (select st.openS st.f hne)) with
        | error er =>
          rw [hrel] at h
          injection h with h2
          obtain ⟨p, hp, hpc⟩ := relaxList_error _ _ _ hrel
          exact Or.inr (Or.inr ⟨er, p, select st.openS st.f hne, hp, hpc, h2.symm⟩)
        | ok st2 =>
          rw [hrel] at h
          have hcont : stepF nodes hf es goal n st = .cont st2 := by
            rw [stepF_expand hne hg, hrel]
          exact ih st2 r (stepF_cont_ok hc hinv hcont).1 h
    · rw [stepF_empty hne] at h
      injection h with h2
      exact Or.inl ⟨st, hinv, Finset.not_nonempty_iff_eq_empty.mp hne, h2.symm⟩

/-- If the open set has drained, everything reachable from a closed
finite node is closed with finite g-cost. -/
theorem walk_closed {hf : Int → Int → ℚ} {es : List Edge} {start goal : Int}
    {st : AState} (hinv : Inv hf es start goal st) (hemp : st.openS = ∅) :
    ∀ (w : List Edge) (s v : Int), s ∈ st.closedS → st.g s ≠ ⊤ →
      IsWalkFrom es s v w → v ∈ st.closedS ∧ st.g v ≠ ⊤ := by
  intro w
  induction w with
  | nil =>
    intro s v hs hgs hw
    have hsv : s = v := hw
    exact hsv ▸ ⟨hs, hgs⟩
  | cons e rest ih =>
    intro s v hs hgs hw
    obtain ⟨he, hsrc, hrest⟩ := hw
    have hadj : ((e.dst, e.cost) : Int × ℚ) ∈ adj es s :=
      adj_mem.mpr ⟨e, he, hsrc, rfl, rfl⟩
    have hle := hinv.closed_relax s hs (e.dst, e.cost) hadj
    have hfin : st.g e.dst ≠ ⊤ :=
      ne_top_of_le_ne_top (WithTop.add_ne_top.mpr ⟨hgs, WithTop.coe_ne_top⟩) hle
    have hcl : e.dst ∈ st.closedS := by
      rcases hinv.finite_mem e.dst hfin with h2 | h2
      · rw [hemp] at h2
        exact absurd h2 (Finset.not_mem_empty _)
      · exact h2
    exact ih e.dst v hcl hfin hrest

/-- The descend lemma: at the moment the goal is selected, its g-cost
is a lower bound for reaching the goal through any walk from any
finitely-costed node, provided the heuristic is consistent towards the
goal and zero at the goal. -/
theorem descend {hf : Int → Int → ℚ} {es : List Edge} {start goal : Int}
    {st : AState} (hinv : Inv hf es start goal st) (hne : st.openS.Nonempty)
    (hsel : select st.openS st.f hne = goal)
    (hcons : ∀ e ∈ es, hf e.src goal ≤ e.cost + hf e.dst goal)
    (hgg : hf goal goal = 0) :
    ∀ (w : List Edge) (v : Int), st.g v ≠ ⊤ → IsWalkFrom es v goal w →
      st.g goal ≤ st.g v + ((walkCost w : ℚ) : WithTop ℚ) := by
  have hggfin : st.g goal ≠ ⊤ := hinv.open_finite goal (hsel ▸ select_mem st.openS st.f hne)
  have hwalk_h : ∀ (w : List Edge) (a : Int), IsWalkFrom es a goal w →
      hf a goal ≤ walkCost w + hf goal goal := by
    intro w
    induction w with
    | nil =>
      intro a hw
      have ha : a = goal := hw
      rw [ha]
      simp [walkCost]
    | cons e rest ih =>
      intro a hw
      obtain ⟨he, hsrc, hrest⟩ := hw
      have h1 : hf a goal ≤ e.cost + hf e.dst goal := hsrc ▸ hcons e he
      have h2 := ih e.dst hrest
      have h3 : walkCost (e :: rest) = e.cost + walkCost rest := by
        simp [walkCost]
      rw [h3]
      linarith
  have hopen_bound : ∀ (v : Int), v ∈ st.openS → st.g v ≠ ⊤ →
      ∀ (w : List Edge), IsWalkFrom es v goal w →
        st.g goal ≤ st.g v + ((walkCost w : ℚ) : WithTop ℚ) := by
    intro v hvo hvfin w hw
    have hf_le : st.f goal ≤ st.f v := by
      have h4 := select_f_le st.openS st.f hne hvo
      rw [hsel] at h4
      exact h4
    rw [hinv.f_sync goal hggfin, hinv.f_sync v hvfin, hgg] at hf_le
    have h0 : st.g goal + ((0 : ℚ) : WithTop ℚ) = st.g goal := by
      rw [show ((0 : ℚ) : WithTop ℚ) = (0 : WithTop ℚ) from rfl, add_zero]
    rw [h0] at hf_le
    have hcoe : ((hf v goal : ℚ) : WithTop ℚ) ≤ ((walkCost w : ℚ) : WithTop ℚ) := by
      rw [WithTop.coe_le_coe]
      have h5 := hwalk_h w v hw
      rw [hgg, add_zero] at h5
      exact h5
    exact le_trans hf_le (add_le_add_left hcoe _)
  intro w
  induction w with
  | nil =>
    intro v hv hw
    have hveq : v = goal := hw
    subst hveq
    simp [walkCost]
  | cons e rest ih =>
    intro v hv hw
    obtain ⟨he, hsrc, hrest⟩ := hw
    rcases hinv.finite_mem v hv with hvo | hvc
    · exact hopen_bound v hvo hv (e :: rest) ⟨he, hsrc, hrest⟩
    · have hadj : ((e.dst, e.cost) : Int × ℚ) ∈ adj es v :=
        adj_mem.mpr ⟨e, he, hsrc, rfl, rfl⟩
      have hrel := hinv.closed_relax v hvc (e.dst, e.cost) hadj
      have hdfin : st.g e.dst ≠ ⊤ :=
        ne_top_of_le_ne_top (WithTop.add_ne_top.mpr ⟨hv, WithTop.coe_ne_top⟩) hrel
      have hih := ih e.dst hdfin hrest
      have h3 : walkCost (e :: rest) = e.cost + walkCost rest := by
        simp [walkCost]
      calc st.g goal ≤ st.g e.dst + ((walkCost rest : ℚ) : WithTop ℚ) := hih
        _ ≤ (st.g v + ((e.cost : ℚ) : WithTop ℚ)) + ((walkCost rest : ℚ) : WithTop ℚ) :=
            add_le_add_right hrel _
        _ = st.g v + ((walkCost (e :: rest) : ℚ) : WithTop ℚ) := by
            rw [add_assoc, ← WithTop.coe_add, h3]


/-! ## C8 and C4, amended: termination and the unreachable-goal result
under nonnegative edge costs -/

/-- C8 (amended): for every graph whose edge costs are all nonnegative
— self-loops included — and any start/goal ids and heuristic, `astar`
terminates with a result: some fuel makes the loop finish.  (The
negative-cost half of the original claim is refuted separately, by the
divergence of the negative self-loop graph.) -/
theorem astar_termination_C8 {nodes : List Int} (hf : Int → Int → ℚ) {es : List Edge}
    (start goal : Int) (hc : ∀ e ∈ es, 0 ≤ e.cost) :
    ∃ (n : ℕ) (r : Result), astar nodes hf es start goal n = some r := by
  cases hinit : astarInit nodes hf start goal with
  | error er =>
    refine ⟨1, .error er, ?_⟩
    rw [astar, hinit]
  | ok st0 =>
    have hinv0 : Inv hf es start goal st0 := astarInit_inv hinit
    obtain ⟨n, r, hrun⟩ := loop_terminates hc st0 hinv0
    refine ⟨n, r, ?_⟩
    rw [astar, hinit]
    exact hrun

/-- Witness for the amended C8 on a concrete one-edge graph with a
self-loop. -/
theorem astar_termination_C8_witness :
    (∀ e ∈ ([⟨1, 2, 1⟩, ⟨2, 2, 0⟩] : List Edge), 0 ≤ e.cost) ∧
      ∃ (n : ℕ) (r : Result),
        astar [1, 2] hfz [⟨1, 2, 1⟩, ⟨2, 2, 0⟩] 1 2 n = some r :=
  ⟨by decide, astar_termination_C8 hfz 1 2 (by decide)⟩

theorem exC4p_no_walk : ∀ w, ¬ IsWalkFrom exC4p 1 2 w := by
  intro w
  induction w with
  | nil => intro h; exact absurd h (by decide : ¬ ((1 : Int) = 2))
  | cons e rest ih =>
    intro h
    obtain ⟨hmem, _, hrest⟩ := h
    have he : e = ⟨1, 1, 1⟩ := by simpa [exC4p] using hmem
    subst he
    exact ih hrest

/-- C4 (amended): with nonnegative edge costs, start and goal ids
present in the node store and every edge target present as well, an
unreachable goal yields the normal result `([], ∞)` with no exception.
(As stated — without the nonnegativity restriction — the claim is
refuted separately, by the divergence of a negative self-loop graph.) -/
theorem astar_unreachable_C4 {nodes : List Int} {hf : Int → Int → ℚ} {es : List Edge}
    {start goal : Int}
    (hc : ∀ e ∈ es, 0 ≤ e.cost)
    (hsn : start ∈ nodes) (hgn : goal ∈ nodes)
    (hend : ∀ e ∈ es, e.dst ∈ nodes)
    (hunreach : ∀ w, ¬ IsWalkFrom es start goal w) :
    ∃ n : ℕ, astar nodes hf es start goal n = some (.ok ([], ⊤)) := by
  cases hinit : astarInit nodes hf start goal with
  | error er =>
    rw [astarInit, hcall_ok_of_mem hsn hgn] at hinit
    cases hinit
  | ok st0 =>
    have hinv0 : Inv hf es start goal st0 := astarInit_inv hinit
    obtain ⟨n, r, hrun⟩ := loop_terminates hc st0 hinv0
    rcases loop_run hc n st0 r hinv0 hrun with
      ⟨st', hinv', hemp, hr⟩ | ⟨st', hne, hinv', hsel, l, n2, hreb, hr⟩ |
      ⟨er, q, cur2, hq, hqc, hr⟩
    · subst hr
      refine ⟨n, ?_⟩
      rw [astar, hinit]
      exact hrun
    · exfalso
      have hgfin : st'.g goal ≠ ⊤ :=
        hinv'.open_finite goal (hsel ▸ select_mem st'.openS st'.f hne)
      obtain ⟨w, hw, _⟩ := hinv'.g_walk goal hgfin
      exact hunreach w hw
    · exfalso
      obtain ⟨e, he, _, hdst, _⟩ := adj_mem.mp hq
      have hq1 : q.1 ∈ nodes := hdst ▸ hend e he
      rw [hcall_ok_of_mem hq1 hgn] at hqc
      cases hqc

/-- Witness for the amended C4: positive self-loop graph, goal `2`
unreachable, result `([], ∞)`. -/
theorem astar_unreachable_C4_witness :
    (∀ e ∈ exC4p, 0 ≤ e.cost) ∧ (1 : Int) ∈ ([1, 2] : List Int) ∧
      (2 : Int) ∈ ([1, 2] : List Int) ∧
      (∀ e ∈ exC4p, e.dst ∈ ([1, 2] : List Int)) ∧
      (∀ w, ¬ IsWalkFrom exC4p 1 2 w) ∧
      ∃ n : ℕ, astar [1, 2] hfz exC4p 1 2 n = some (.ok ([], ⊤)) :=
  ⟨by decide, by decide, by decide, by decide, exC4p_no_walk,
    astar_unreachable_C4 (by decide) (by decide) (by decide) (by decide) exC4p_no_walk⟩


/-! ## C10 and C1: structure and optimality of returned paths -/

/-- What the goal-exit branch returns: a nonempty list from `start` to
`goal` along graph edges, whose independently recomputed cost is at
most the reported g-cost of the goal. -/
theorem goal_exit_path {hf : Int → Int → ℚ} {es : List Edge} {start goal : Int}
    {st' : AState} (hinv' : Inv hf es start goal st')
    (hne : st'.openS.Nonempty) (hsel : select st'.openS st'.f hne = goal)
    {l : List Int} {n2 : ℕ} (hreb : rebuildF st'.prev n2 [goal] = some l) :
    l ≠ [] ∧ l.head? = some start ∧ l.getLast? = some goal ∧
      List.Chain' (fun a b => ∃ e ∈ es, e.src = a ∧ e.dst = b) l ∧
      pathCostMin es l ≤ st'.g goal := by
  have hgfin : st'.g goal ≠ ⊤ :=
    hinv'.open_finite goal (hsel ▸ select_mem st'.openS st'.f hne)
  obtain ⟨⟨pre, hpre⟩, hch, h, t, hht, hpn⟩ := rebuildF_spec n2 goal [] l hreb
  have hchain : PrevChain st'.prev l := hch trivial
  have hlast : l.getLast? = some goal := by
    rw [hpre, List.getLast?_append_cons]
    rfl
  subst hht
  have hl2 := hlast
  rw [List.getLast?_eq_getLast_of_ne_nil (List.cons_ne_nil h t)] at hl2
  have hlasteq := Option.some.inj hl2
  have hglast : st'.g ((h :: t).getLast (List.cons_ne_nil h t)) ≠ ⊤ := by
    rw [hlasteq]
    exact hgfin
  have hheadfin : st'.g h ≠ ⊤ := prevChain_head_finite hinv'.toCore t h hchain hglast
  have hhstart : h = start := by
    by_contra hne2
    exact hinv'.prev_none h hheadfin hne2 hpn
  refine ⟨List.cons_ne_nil h t, ?_, hlast, prevChain_chain hinv'.toCore _ hchain, ?_⟩
  · rw [← hhstart]
    rfl
  · have htel := prevChain_telescope hinv'.toCore t h hchain
    rw [hlasteq] at htel
    refine le_trans ?_ htel
    exact le_add_of_nonneg_left (hinv'.g_nonneg h)

/-- C10: on a graph with nonnegative edge costs and start/goal present,
every nonempty returned path starts at `start`, ends at `goal`, and
walks along actual edges of the edge list. -/
theorem astar_path_wellformed_C10 {nodes : List Int} {hf : Int → Int → ℚ}
    {es : List Edge} {start goal : Int} {fuel : ℕ} {p : List Int} {c : WithTop ℚ}
    (hc : ∀ e ∈ es, 0 ≤ e.cost)
    (hsn : start ∈ nodes) (hgn : goal ∈ nodes)
    (hrun : astar nodes hf es start goal fuel = some (.ok (p, c)))
    (hp : p ≠ []) :
    p.head? = some start ∧ p.getLast? = some goal ∧
      List.Chain' (fun a b => ∃ e ∈ es, e.src = a ∧ e.dst = b) p := by
  cases hinit : astarInit nodes hf start goal with
  | error er =>
    rw [astar, hinit] at hrun
    injection hrun with h2
    cases h2
  | ok st0 =>
    have hinv0 : Inv hf es start goal st0 := astarInit_inv hinit
    rw [astar, hinit] at hrun
    rcases loop_run hc fuel st0 _ hinv0 hrun with
      ⟨st', _, _, hr⟩ | ⟨st', hne, hinv', hsel, l, n2, hreb, hr⟩ |
      ⟨er, q, cur2, _, _, hr⟩
    · injection hr with h2
      injection h2 with h3 h4
      exact absurd h3 hp
    · injection hr with h2
      injection h2 with h3 h4
      obtain ⟨_, hhead, hlast, hchain, _⟩ := goal_exit_path hinv' hne hsel hreb
      rw [h3]
      exact ⟨hhead, hlast, hchain⟩
    · cases hr

/-- Witness for C10 on a concrete run returning `[1, 2, 3]`. -/
theorem astar_path_wellformed_C10_witness :
    (∀ e ∈ esW, 0 ≤ e.cost) ∧ (1 : Int) ∈ ([1, 2, 3] : List Int) ∧
      (3 : Int) ∈ ([1, 2, 3] : List Int) ∧
      astar [1, 2, 3] hfW esW 1 3 10 = some (.ok ([1, 2, 3], ((2 : ℚ) : WithTop ℚ))) ∧
      ([1, 2, 3] : List Int) ≠ [] ∧
      (([1, 2, 3] : List Int).head? = some 1 ∧
        ([1, 2, 3] : List Int).getLast? = some 3 ∧
        List.Chain' (fun a b => ∃ e ∈ esW, e.src = a ∧ e.dst = b) [1, 2, 3]) := by
  have hrun : astar [1, 2, 3] hfW esW 1 3 10
      = some (.ok ([1, 2, 3], ((2 : ℚ) : WithTop ℚ))) := by decide
  exact ⟨by decide, by decide, by decide, hrun, by decide,
    astar_path_wellformed_C10 (by decide) (by decide) (by decide) hrun (by decide)⟩

/-- C1: on a finite graph with nonnegative costs, a heuristic that is
consistent towards the goal (as the Euclidean heuristic is when every
edge cost dominates the straight-line distance of its endpoints) and
zero at the goal, start/goal and all edge targets present in the node
store, and the goal reachable, `astar` succeeds with a nonempty path
whose independently recomputed cost is at most the reported cost, and
the reported cost is at most the cost of every directed walk from
start to goal — so the returned path is optimal. -/
theorem astar_optimality_C1 {nodes : List Int} {hf : Int → Int → ℚ} {es : List Edge}
    {start goal : Int}
    (hc : ∀ e ∈ es, 0 ≤ e.cost)
    (hsn : start ∈ nodes) (hgn : goal ∈ nodes)
    (hend : ∀ e ∈ es, e.dst ∈ nodes)
    (hcons : ∀ e ∈ es, hf e.src goal ≤ e.cost + hf e.dst goal)
    (hgg : hf goal goal = 0)
    (hreach : ∃ w, IsWalkFrom es start goal w) :
    ∃ (n : ℕ) (p : List Int) (c : WithTop ℚ),
      astar nodes hf es start goal n = some (.ok (p, c)) ∧ p ≠ [] ∧
      pathCostMin es p ≤ c ∧
      ∀ w, IsWalkFrom es start goal w → c ≤ ((walkCost w : ℚ) : WithTop ℚ) := by
  cases hinit : astarInit nodes hf start goal with
  | error er =>
    rw [astarInit, hcall_ok_of_mem hsn hgn] at hinit
    cases hinit
  | ok st0 =>
    have hinv0 : Inv hf es start goal st0 := astarInit_inv hinit
    obtain ⟨n, r, hrun⟩ := loop_terminates hc st0 hinv0
    rcases loop_run hc n st0 r hinv0 hrun with
      ⟨st', hinv', hemp, hr⟩ | ⟨st', hne, hinv', hsel, l, n2, hreb, hr⟩ |
      ⟨er, q, cur2, hq, hqc, hr⟩
    · exfalso
      obtain ⟨w, hw⟩ := hreach
      have hstart_fin : st'.g start ≠ ⊤ := by
        rw [hinv'.g_start]
        exact WithTop.zero_ne_top
      have hstart_cl : start ∈ st'.closedS := by
        rcases hinv'.finite_mem start hstart_fin with h2 | h2
        · rw [hemp] at h2
          exact absurd h2 (Finset.not_mem_empty _)
        · exact h2
      exact hinv'.goal_not_closed
        (walk_closed hinv' hemp w start goal hstart_cl hstart_fin hw).1
    · subst hr
      obtain ⟨hne2, hhead, hlast, hchain, htel⟩ := goal_exit_path hinv' hne hsel hreb
      have hastar : astar nodes hf es start goal n = some (.ok (l, st'.g goal)) := by
        rw [astar, hinit]
        exact hrun
      refine ⟨n, l, st'.g goal, hastar, hne2, htel, ?_⟩
      intro w hw
      have hstart_fin : st'.g start ≠ ⊤ := by
        rw [hinv'.g_start]
        exact WithTop.zero_ne_top
      have hdes := descend hinv' hne hsel hcons hgg w start hstart_fin hw
      rw [hinv'.g_start, zero_add] at hdes
      exact hdes
    · exfalso
      obtain ⟨e, he, _, hdst, _⟩ := adj_mem.mp hq
      have hq1 : q.1 ∈ nodes := hdst ▸ hend e he
      rw [hcall_ok_of_mem hq1 hgn] at hqc
      cases hqc

/-- Witness for C1: the collinear three-node scenario; the walk
`1→2→3` of cost 2 beats the direct edge of cost 3. -/
theorem astar_optimality_C1_witness :
    (∀ e ∈ esW, 0 ≤ e.cost) ∧ (1 : Int) ∈ ([1, 2, 3] : List Int) ∧
      (3 : Int) ∈ ([1, 2, 3] : List Int) ∧
      (∀ e ∈ esW, e.dst ∈ ([1, 2, 3] : List Int)) ∧
      (∀ e ∈ esW, hfW e.src 3 ≤ e.cost + hfW e.dst 3) ∧ hfW 3 3 = 0 ∧
      (∃ w, IsWalkFrom esW 1 3 w) ∧
      ∃ (n : ℕ) (p : List Int) (c : WithTop ℚ),
        astar [1, 2, 3] hfW esW 1 3 n = some (.ok (p, c)) ∧ p ≠ [] ∧
        pathCostMin esW p ≤ c ∧
        ∀ w, IsWalkFrom esW 1 3 w → c ≤ ((walkCost w : ℚ) : WithTop ℚ) := by
  have hwalk : IsWalkFrom esW 1 3 [⟨1, 2, 1⟩, ⟨2, 3, 1⟩] :=
    ⟨by decide, rfl, by decide, rfl, rfl⟩
  exact ⟨by decide, by decide, by decide, by decide, by decide, by decide, ⟨_, hwalk⟩,
    astar_optimality_C1 (by decide) (by decide) (by decide) (by decide) (by decide)
      (by decide) ⟨_, hwalk⟩⟩

end WardAStar
